import Mathlib

set_option maxHeartbeats 1000000

/-!
Shallow embedding of `ax/storage/sqa_store/utils.py` (`copy_db_ids`).

Python objects are modelled by the value type `PyVal`; the in-place
mutation performed by `copy_db_ids` is modelled by state passing: the
embedded function returns the (possibly updated) source, the (possibly
updated) target, and an optional raised error.  The recursion-depth
guard of the source (`len(path) > 10`, one path component added per
recursive call) bounds the recursion, so the function is defined with
a fuel argument that the guard makes unreachable at the top entry.
-/

/-- A Python runtime value as traversed by `copy_db_ids`.

The constructor `base` models instances of `ax.utils.common.base.Base`;
that class is not part of the sources here, so it is
Modelled from the spec: an identifiable object carries a class name, a
mapping from attribute name to value (`__dict__`, in insertion order),
and optionally the total-order capability (`SortableBase`, a capability
distinct from plain identifiable-object support) with its natural sort
key.  `typeObj` models a class reference (an object `x` with
`isinstance(x, type)`). -/
inductive PyVal : Type where
  | base (cls : String) (sortable : Bool) (key : Int) (attrs : List (String × PyVal))
  | list (elems : List PyVal)
  | set (elems : List PyVal)
  | tuple (elems : List PyVal)
  | dict (entries : List (String × PyVal))
  | int (n : Int)
  | str (s : String)
  | pyNone
  | typeObj (name : String)

/-- An exception raised by the traversal: either the storage decode error
`SQADecodeError` raised explicitly by `copy_db_ids`, or the Python
`AttributeError` that `getattr(target, attr)` raises when `target` lacks
the attribute. -/
inductive PyError : Type where
  | SQADecodeError (msg : String)
  | AttributeError (attr : String)
deriving DecidableEq

/-- Check that the first character list is an initial segment of the
second. -/
def charsStart : List Char → List Char → Bool
  | [], _ => true
  | _ :: _, [] => false
  | p :: ps, c :: cs => p == c && charsStart ps cs

/-- `attr.endswith("_db_id")`. -/
def isDbIdField (a : String) : Bool :=
  charsStart "_db_id".data.reverse a.data.reverse

/-- `attr == "_experiment" or attr.startswith("__")`. -/
def isSkippedAttr (a : String) : Bool :=
  a == "_experiment" || charsStart "__".data a.data

/-- The name of the Python runtime type of a value (simplified rendering of
`type(x)`, used only inside diagnostic messages). -/
def typeName : PyVal → String
  | .base c _ _ _ => c
  | .list _ => "list"
  | .set _ => "set"
  | .tuple _ => "tuple"
  | .dict _ => "dict"
  | .int _ => "int"
  | .str _ => "str"
  | .pyNone => "NoneType"
  | .typeObj _ => "type"

/-- `type(source) == type(target)`: same runtime type.  For `base`
instances the runtime type is the class. -/
def sameType : PyVal → PyVal → Bool
  | .base c _ _ _, .base c' _ _ _ => c == c'
  | .list _, .list _ => true
  | .set _, .set _ => true
  | .tuple _, .tuple _ => true
  | .dict _, .dict _ => true
  | .int _, .int _ => true
  | .str _, .str _ => true
  | .pyNone, .pyNone => true
  | .typeObj _, .typeObj _ => true
  | _, _ => false

/-- Simplified rendering of `str(x)`, used only inside diagnostic
messages (the exact Python `repr` text is class specific and is not part
of any claim). -/
def pyStr : PyVal → String
  | .base c _ _ _ => "<" ++ c ++ ">"
  | .list _ => "[...]"
  | .set _ => "set(...)"
  | .tuple _ => "(...)"
  | .dict _ => "dict(...)"
  | .int n => toString n
  | .str s => s
  | .pyNone => "None"
  | .typeObj n => "<class " ++ n ++ ">"

/-- Rendering of a list of path components, as in the f-string
`path + [str(source)]` of the error message. -/
def renderPath (path : List String) : String :=
  "[" ++ String.intercalate ", " path ++ "]"

/-- The `error_message_prefix` computed at every entry of `copy_db_ids`. -/
def msgPre (s t : PyVal) (path : List String) : String :=
  "Error encountered while traversing source " ++ renderPath (path ++ [pyStr s]) ++
    " and target " ++ renderPath (path ++ [pyStr t]) ++ ": "

/-- Python `<` on the values that `copy_db_ids` may sort.
Modelled from the spec: elements of round-trip collections are sorted
under their natural order; `SortableBase` instances order by their sort
key, ints and strings by their usual order; everything else (including
plain `Base` instances, which lack the capability) is incomparable. -/
def pyLt : PyVal → PyVal → Bool
  | .int a, .int b => decide (a < b)
  | .str a, .str b => decide (a < b)
  | .base _ sa ka _, .base _ sb kb _ => sa && sb && decide (ka < kb)
  | _, _ => false

/-- The non-strict comparison used for stable insertion sorting with a
strict `lt` (Python's `sorted` is a stable sort driven by `__lt__`). -/
def pyLe (a b : PyVal) : Bool := !(pyLt b a)

/-- Insert into a sorted list, keeping earlier-inserted equal elements
after the new one is placed before the first element it is `le` to. -/
def insertSorted {α : Type} (le : α → α → Bool) (x : α) : List α → List α
  | [] => [x]
  | y :: ys => if le x y then x :: y :: ys else y :: insertSorted le x ys

/-- Stable insertion sort; models Python's stable `sorted`. -/
def isort {α : Type} (le : α → α → Bool) : List α → List α
  | [] => []
  | x :: xs => insertSorted le x (isort le xs)

/-- Pair each element with its position, starting at `n`.  Sorting these
pairs by element models sorting a Python list of objects while
remembering where each object lives in the original list (in-place
mutation of a sorted copy's element is mutation at its original
position). -/
def withIdx {α : Type} : List α → Nat → List (α × Nat)
  | [], _ => []
  | x :: xs, n => (x, n) :: withIdx xs (n + 1)

/-- Comparison on indexed elements: by the element only. -/
def pairLe (p q : PyVal × Nat) : Bool := pyLe p.1 q.1

/-- `getattr(target, attr)` / dictionary lookup on an insertion-ordered
attribute list. -/
def getAttr (l : List (String × PyVal)) (a : String) : Option PyVal :=
  match l.find? (fun p => p.1 == a) with
  | some p => some p.2
  | none => none

/-- `setattr(target, attr, v)` / `target[k] = v` on an insertion-ordered
attribute list: replace in place if present, else append. -/
def setAttr (l : List (String × PyVal)) (a : String) (v : PyVal) :
    List (String × PyVal) :=
  if l.any (fun p => p.1 == a) then
    l.map (fun p => if p.1 == a then (p.1, v) else p)
  else l ++ [(a, v)]

/-- Write back a batch of (position, value) element mutations into a
list. -/
def applyUpdates (l : List PyVal) (ws : List (Nat × PyVal)) : List PyVal :=
  ws.foldl (fun acc w => acc.set w.1 w.2) l

/-- Result of one `copy_db_ids` call: updated source, updated target,
optional raised error (mutations performed before a raise are kept, as
they are in Python). -/
abbrev CopyResult := PyVal × PyVal × Option PyError

/-- The `for attr, val in source.__dict__.items()` loop of the `Base`
branch: copy `_db_id` attributes, skip `_experiment` and
double-underscore attributes, recurse into the rest via `rec`.  Returns
the updated source attributes, updated target attributes, and the first
raised error (iteration stops there, keeping earlier mutations). -/
def copyAttrs (rec : PyVal → PyVal → List String → CopyResult)
    (path : List String) :
    List (String × PyVal) → List (String × PyVal) →
      List (String × PyVal) × List (String × PyVal) × Option PyError
  | [], ta => ([], ta, none)
  | (a, v) :: rest, ta =>
    if isDbIdField a then
      let r := copyAttrs rec path rest (setAttr ta a v)
      ((a, v) :: r.1, r.2.1, r.2.2)
    else if isSkippedAttr a then
      let r := copyAttrs rec path rest ta
      ((a, v) :: r.1, r.2.1, r.2.2)
    else
      match getAttr ta a with
      | none => ((a, v) :: rest, ta, some (.AttributeError a))
      | some tv =>
        let r := rec v tv (path ++ [a])
        let ta1 := setAttr ta a r.2.1
        match r.2.2 with
        | some e => ((a, r.1) :: rest, ta1, some e)
        | none =>
          let r2 := copyAttrs rec path rest ta1
          ((a, r.1) :: r2.1, r2.2.1, r2.2.2)

/-- The `for k, v in source.items()` loop of the dict branch: a key
missing from `target` raises the `SQADecodeError` naming it, otherwise
recurse into the paired values via `rec`. -/
def copyDict (rec : PyVal → PyVal → List String → CopyResult)
    (path : List String) (m : String) :
    List (String × PyVal) → List (String × PyVal) →
      List (String × PyVal) × List (String × PyVal) × Option PyError
  | [], te => ([], te, none)
  | (k, v) :: rest, te =>
    match getAttr te k with
    | none =>
      ((k, v) :: rest, te,
        some (.SQADecodeError
          (m ++ "Encountered key only present in source dictionary: " ++ k ++ ".")))
    | some tv =>
      let r := rec v tv (path ++ [k])
      let te1 := setAttr te k r.2.1
      match r.2.2 with
      | some e => ((k, r.1) :: rest, te1, some e)
      | none =>
        let r2 := copyDict rec path m rest te1
        ((k, r.1) :: r2.1, r2.2.1, r2.2.2)

/-- The `for index, x in enumerate(source)` loop over the two
independently sorted, position-tagged collections: recurse into the
`index`-th sorted pair with the path extended by `str(index)`, and
collect the element mutations as (original position, new value) writes.
Stops at the first raised error, keeping the write performed by the
failing call. -/
def copyPairs (rec : PyVal → PyVal → List String → CopyResult)
    (path : List String) :
    Nat → List (PyVal × Nat) → List (PyVal × Nat) →
      List (Nat × PyVal) × List (Nat × PyVal) × Option PyError
  | _, [], _ => ([], [], none)
  | _, _ :: _, [] => ([], [], none)
  | k, sp :: ss, tp :: ts =>
    let r := rec sp.1 tp.1 (path ++ [toString k])
    match r.2.2 with
    | some e => ([(sp.2, r.1)], [(tp.2, r.2.1)], some e)
    | none =>
      let r2 := copyPairs rec path (k + 1) ss ts
      ((sp.2, r.1) :: r2.1, (tp.2, r.2.1) :: r2.2.1, r2.2.2)

/-- `isinstance(x, type)`: a class reference. -/
def isTypeObj : PyVal → Bool
  | .typeObj _ => true
  | _ => false

/-- `isinstance(x, Base) and not isinstance(x, SortableBase)`: an
identifiable object lacking the total-order capability. -/
def isUnsortableBase : PyVal → Bool
  | .base _ sortable _ _ => !sortable
  | _ => false

/-- The shared `list`/`set` branch body (after `source = list(source);
target = list(target)`): length check, early return on empty or
type-descriptor collections, sortability check on the first element,
then sort both sides and recurse pairwise. -/
def copyColl (rec : PyVal → PyVal → List String → CopyResult)
    (path : List String) (m : String) (xs ys : List PyVal) :
    List PyVal × List PyVal × Option PyError :=
  if xs.length != ys.length then
    (xs, ys, some (.SQADecodeError (m ++ "Encountered lists of different lengths.")))
  else
    match xs with
    | [] => (xs, ys, none)
    | x0 :: _ =>
      if isTypeObj x0 then (xs, ys, none)
      else
        if isUnsortableBase x0 then
          (xs, ys,
            some (.SQADecodeError
              (m ++ "Cannot sort instances of " ++ typeName x0 ++
                "; sorting is only defined on instances of SortableBase.")))
        else
          let sIdx := isort pairLe (withIdx xs 0)
          let tIdx := isort pairLe (withIdx ys 0)
          let r := copyPairs rec path 0 sIdx tIdx
          (applyUpdates xs r.1, applyUpdates ys r.2.1, r.2.2)

/-- One level of `copy_db_ids`: the depth guard, the prefix, the type
check, then the branch on the runtime shape of `source`. -/
def copyOne (rec : PyVal → PyVal → List String → CopyResult)
    (s t : PyVal) (path : List String) : CopyResult :=
  if path.length > 10 then (s, t, none)
  else
    let m := msgPre s t path
    if !(sameType s t) then
      (s, t,
        some (.SQADecodeError
          (m ++ "Encountered two objects of different types: " ++ typeName s ++
            " and " ++ typeName t ++ ".")))
    else
      match s, t with
      | .base c sb k sa, .base c' sb' k' ta =>
        let r := copyAttrs rec path sa ta
        (.base c sb k r.1, .base c' sb' k' r.2.1, r.2.2)
      | .list xs, .list ys =>
        let r := copyColl rec path m xs ys
        (.list r.1, .list r.2.1, r.2.2)
      | .set xs, .set ys =>
        let r := copyColl rec path m xs ys
        (.set r.1, .set r.2.1, r.2.2)
      | .dict se, .dict te =>
        let r := copyDict rec path m se te
        (.dict r.1, .dict r.2.1, r.2.2)
      | _, _ => (s, t, none)

/-- Fuel-indexed recursion.  Each recursive call of the Python function
extends `path` by one component and the guard returns at `len(path) >
10`, so starting with fuel 12 the fuel-exhaustion case is unreachable:
the guard fires first. -/
def copyAux : Nat → PyVal → PyVal → List String → CopyResult
  | 0, s, t, _ => (s, t, none)
  | f + 1, s, t, path => copyOne (copyAux f) s t path

/-- `copy_db_ids(source, target, path=None)`. -/
def copy_db_ids (source target : PyVal) (path : List String := []) : CopyResult :=
  copyAux 12 source target path

/-! ### Basic unfolding lemmas -/

theorem copyAux_succ (f : Nat) (s t : PyVal) (path : List String) :
    copyAux (f + 1) s t path = copyOne (copyAux f) s t path := rfl

theorem copy_db_ids_eq (s t : PyVal) (path : List String) :
    copy_db_ids s t path = copyOne (copyAux 11) s t path := rfl

/-! ### Easy claims: depth guard, tuples, root mismatches -/

/-- C7: for every source, target and path of length exceeding 10,
`copy_db_ids` returns normally, mutating nothing and raising nothing:
the depth guard precedes every check. -/
theorem c7_depth_guard_silent (s t : PyVal) (path : List String)
    (h : path.length > 10) : copy_db_ids s t path = (s, t, none) := by
  rw [copy_db_ids_eq]
  unfold copyOne
  simp [h]

/-- Witness for C7 at a concrete path of length 11 and mismatched scalars. -/
theorem c7_depth_guard_silent_witness :
    (["a", "b", "c", "d", "e", "f", "g", "h", "i", "j", "k"] : List String).length > 10 ∧
      copy_db_ids (.int 1) (.str "x")
        ["a", "b", "c", "d", "e", "f", "g", "h", "i", "j", "k"] =
        (.int 1, .str "x", none) :=
  ⟨by decide, c7_depth_guard_silent (.int 1) (.str "x") _ (by decide)⟩

/-- C10: a pair of tuples (a collection type other than list, set or
dict) falls through to the final no-op branch: nothing is copied, no
recursion happens and no error is raised, for any contents, lengths and
path. -/
theorem c10_tuple_no_action (xs ys : List PyVal) (path : List String) :
    copy_db_ids (.tuple xs) (.tuple ys) path = (.tuple xs, .tuple ys, none) := by
  rw [copy_db_ids_eq]
  unfold copyOne
  by_cases h : path.length > 10 <;> simp [h, sameType]

/-- C2: when source and target have different runtime types at the entry
of a traversal step that the depth guard admits, `copy_db_ids` raises
`SQADecodeError` (every recursed-into position is the root of such a
step, so this statement covers mismatches at any traversed position). -/
theorem c2_type_mismatch_raises (s t : PyVal) (path : List String)
    (hp : path.length ≤ 10) (hty : sameType s t = false) :
    copy_db_ids s t path =
      (s, t,
        some (.SQADecodeError
          (msgPre s t path ++ "Encountered two objects of different types: " ++
            typeName s ++ " and " ++ typeName t ++ "."))) := by
  rw [copy_db_ids_eq]
  unfold copyOne
  simp [Nat.not_lt.mpr hp, hty]

/-- Witness for C2: an int source against a str target at the root. -/
theorem c2_type_mismatch_raises_witness :
    ([] : List String).length ≤ 10 ∧ sameType (.int 0) (.str "a") = false ∧
      copy_db_ids (.int 0) (.str "a") [] =
        (.int 0, .str "a",
          some (.SQADecodeError
            (msgPre (.int 0) (.str "a") [] ++
              "Encountered two objects of different types: int and str."))) :=
  ⟨by decide, rfl, c2_type_mismatch_raises (.int 0) (.str "a") [] (by decide) rfl⟩

/-- Rebuild a collection of the kind (list or set) selected by `b`. -/
def mkColl (b : Bool) (xs : List PyVal) : PyVal :=
  if b then .list xs else .set xs

/-- C3: two collections of the same kind but different lengths, reached
within the depth guard, raise `SQADecodeError`. -/
theorem c3_length_mismatch_raises (b : Bool) (xs ys : List PyVal)
    (path : List String) (hp : path.length ≤ 10)
    (hl : xs.length ≠ ys.length) :
    copy_db_ids (mkColl b xs) (mkColl b ys) path =
      (mkColl b xs, mkColl b ys,
        some (.SQADecodeError
          (msgPre (mkColl b xs) (mkColl b ys) path ++
            "Encountered lists of different lengths."))) := by
  rw [copy_db_ids_eq]
  cases b <;>
    · unfold copyOne
      simp [Nat.not_lt.mpr hp, mkColl, sameType, copyColl, bne_iff_ne, hl]

/-- Witness for C3: a one-element list against an empty list. -/
theorem c3_length_mismatch_raises_witness :
    ([] : List String).length ≤ 10 ∧
      ([PyVal.int 3].length ≠ ([] : List PyVal).length) ∧
      copy_db_ids (mkColl true [.int 3]) (mkColl true []) [] =
        (mkColl true [.int 3], mkColl true [],
          some (.SQADecodeError
            (msgPre (mkColl true [.int 3]) (mkColl true []) [] ++
              "Encountered lists of different lengths."))) :=
  ⟨by decide, by decide, c3_length_mismatch_raises true [.int 3] [] [] (by decide) (by decide)⟩

/-- C6: a nonempty collection whose first element is a plain `Base`
instance without the total-order capability makes `copy_db_ids` fail
with `SQADecodeError` against any target (type mismatch, length
mismatch, or the sortability check), within the depth guard. -/
theorem c6_unsortable_first_raises (b : Bool) (c : String) (k : Int)
    (attrs : List (String × PyVal)) (rest : List PyVal) (t : PyVal)
    (path : List String) (hp : path.length ≤ 10) :
    ∃ msg, copy_db_ids (mkColl b (.base c false k attrs :: rest)) t path =
      (mkColl b (.base c false k attrs :: rest), t, some (.SQADecodeError msg)) := by
  rw [copy_db_ids_eq]
  unfold copyOne
  cases b <;> cases t <;>
    simp [Nat.not_lt.mpr hp, mkColl, sameType, copyColl, isUnsortableBase, isTypeObj] <;>
    (split <;> simp [isTypeObj, isUnsortableBase])

/-- Witness for C6: a singleton list of an unsortable object against an
equally long list. -/
theorem c6_unsortable_first_raises_witness :
    ([] : List String).length ≤ 10 ∧
      ∃ msg, copy_db_ids (mkColl true [.base "GR" false 0 []]) (.list [.int 0]) [] =
        (mkColl true [.base "GR" false 0 []], .list [.int 0],
          some (.SQADecodeError msg)) :=
  ⟨by decide, c6_unsortable_first_raises true "GR" 0 [] [] (.list [.int 0]) [] (by decide)⟩

/-- A source object whose first attribute is an identifier and whose
second attribute mismatches the target in type. -/
def exS : PyVal := .base "Exp" true 0 [("a_db_id", .int 5), ("b", .int 0)]

/-- The matching target: identifier unset, second attribute a str. -/
def exT : PyVal := .base "Exp" true 0 [("a_db_id", .pyNone), ("b", .str "x")]

/-- The target as left behind by the failing call: identifier already
copied. -/
def exTMut : PyVal := .base "Exp" true 0 [("a_db_id", .int 5), ("b", .str "x")]

/-- C9: `copy_db_ids` is not atomic on error: on this pair it raises
`SQADecodeError`, yet the target has already received the identifier
copied before the mismatch was detected, so the failed call leaves the
target partially updated rather than unchanged. -/
theorem c9_partial_mutation_on_error :
    copy_db_ids exS exT [] =
      (exS, exTMut,
        some (.SQADecodeError
          ("Error encountered while traversing source [b, 0] and target [b, x]: " ++
            "Encountered two objects of different types: int and str."))) ∧
      exTMut ≠ exT := by
  refine ⟨rfl, fun h => ?_⟩
  injection h with _ _ _ h4
  injection h4 with h5 _
  injection h5 with _ h6
  exact PyVal.noConfusion h6

/-! ### Sorting and update helper lemmas -/

theorem mem_insertSorted {α : Type} (le : α → α → Bool) (x : α) (l : List α)
    (y : α) : y ∈ insertSorted le x l ↔ y = x ∨ y ∈ l := by
  induction l with
  | nil => simp [insertSorted]
  | cons z zs ih =>
    unfold insertSorted
    split
    · simp [List.mem_cons]
    · simp [List.mem_cons, ih]
      tauto

theorem mem_isort {α : Type} (le : α → α → Bool) (l : List α) (y : α) :
    y ∈ isort le l ↔ y ∈ l := by
  induction l with
  | nil => simp [isort]
  | cons z zs ih => simp [isort, mem_insertSorted, ih]

theorem withIdx_mem {α : Type} (l : List α) (n : Nat) (x : α) (i : Nat)
    (h : (x, i) ∈ withIdx l n) : n ≤ i ∧ l[i - n]? = some x := by
  induction l generalizing n with
  | nil => simp [withIdx] at h
  | cons z zs ih =>
    simp only [withIdx, List.mem_cons] at h
    rcases h with h | h
    · injection h with h1 h2
      subst h1; subst h2
      simp
    · obtain ⟨hle, hget⟩ := ih (n + 1) h
      refine ⟨by omega, ?_⟩
      have : i - n = (i - (n + 1)) + 1 := by omega
      rw [this]
      simpa using hget

theorem set_self {α : Type} (l : List α) (i : Nat) (x : α)
    (h : l[i]? = some x) : l.set i x = l := by
  induction l generalizing i with
  | nil => simp at h
  | cons z zs ih =>
    cases i with
    | zero => simp at h; simp [h]
    | succ j => simp at h; simp [ih j h]

theorem applyUpdates_id (l : List PyVal) (ws : List (Nat × PyVal))
    (h : ∀ w ∈ ws, l[w.1]? = some w.2) : applyUpdates l ws = l := by
  induction ws with
  | nil => rfl
  | cons w rest ih =>
    have hw := h w (by simp)
    show applyUpdates (l.set w.1 w.2) rest = l
    rw [set_self l w.1 w.2 hw]
    exact ih (fun u hu => h u (by simp [hu]))

/-! ### The source graph is never mutated -/

theorem copyAttrs_src (rec : PyVal → PyVal → List String → CopyResult)
    (hrec : ∀ v tv p, (rec v tv p).1 = v) (path : List String)
    (sa ta : List (String × PyVal)) : (copyAttrs rec path sa ta).1 = sa := by
  induction sa generalizing ta with
  | nil => rfl
  | cons p rest ih =>
    obtain ⟨a, v⟩ := p
    unfold copyAttrs
    split
    · simp [ih]
    · split
      · simp [ih]
      · split
        · rfl
        · simp only []
          split <;> simp [hrec, ih]

theorem copyDict_src (rec : PyVal → PyVal → List String → CopyResult)
    (hrec : ∀ v tv p, (rec v tv p).1 = v) (path : List String) (m : String)
    (se te : List (String × PyVal)) : (copyDict rec path m se te).1 = se := by
  induction se generalizing te with
  | nil => rfl
  | cons p rest ih =>
    obtain ⟨k, v⟩ := p
    unfold copyDict
    split
    · rfl
    · simp only []
      split <;> simp [hrec, ih]

theorem copyPairs_src (rec : PyVal → PyVal → List String → CopyResult)
    (hrec : ∀ v tv p, (rec v tv p).1 = v) (path : List String) (k : Nat)
    (sp tp : List (PyVal × Nat)) :
    ∀ w ∈ (copyPairs rec path k sp tp).1, (w.2, w.1) ∈ sp := by
  induction sp generalizing k tp with
  | nil => intro w hw; simp [copyPairs] at hw
  | cons p ss ih =>
    intro w hw
    cases tp with
    | nil => simp [copyPairs] at hw
    | cons q ts =>
      unfold copyPairs at hw
      revert hw
      simp only []
      split
      · intro hw
        simp at hw
        subst hw
        simp [hrec]
      · intro hw
        rcases List.mem_cons.mp hw with h | h
        · subst h; simp [hrec]
        · exact List.mem_cons_of_mem _ (ih (k + 1) ts w h)

theorem applyUpdates_copyPairs_src (rec : PyVal → PyVal → List String → CopyResult)
    (hrec : ∀ v tv p, (rec v tv p).1 = v) (path : List String) (k : Nat)
    (xs : List PyVal) (tp : List (PyVal × Nat)) :
    applyUpdates xs (copyPairs rec path k (isort pairLe (withIdx xs 0)) tp).1 = xs := by
  refine applyUpdates_id _ _ (fun w hw => ?_)
  have hmem := copyPairs_src rec hrec path k _ tp w hw
  have hmem2 := (mem_isort pairLe _ _).mp hmem
  have h3 := withIdx_mem xs 0 w.2 w.1 hmem2
  simpa using h3.2

theorem copyColl_src (rec : PyVal → PyVal → List String → CopyResult)
    (hrec : ∀ v tv p, (rec v tv p).1 = v) (path : List String) (m : String)
    (xs ys : List PyVal) : (copyColl rec path m xs ys).1 = xs := by
  unfold copyColl
  split
  · rfl
  · split
    · rfl
    · split
      · rfl
      · split
        · rfl
        · apply applyUpdates_copyPairs_src rec hrec

theorem copyOne_src (rec : PyVal → PyVal → List String → CopyResult)
    (hrec : ∀ v tv p, (rec v tv p).1 = v) (s t : PyVal) (path : List String) :
    (copyOne rec s t path).1 = s := by
  unfold copyOne
  split
  · rfl
  · split
    · rfl
    · cases s <;> cases t <;>
        simp [copyAttrs_src rec hrec, copyDict_src rec hrec, copyColl_src rec hrec]

theorem copyAux_src (f : Nat) (s t : PyVal) (path : List String) :
    (copyAux f s t path).1 = s := by
  induction f generalizing s t path with
  | zero => rfl
  | succ g ih => exact copyOne_src (copyAux g) (fun v tv p => ih v tv p) s t path

/-- C8: `copy_db_ids` never mutates the source: the source component of
the state threaded through the traversal (every write the code performs
targets only the target graph) is returned unchanged for every input,
whether or not an error is raised. -/
theorem c8_source_never_mutated (s t : PyVal) (path : List String) :
    (copy_db_ids s t path).1 = s :=
  copyAux_src 12 s t path

/-! ### Dictionary lookup and update lemmas -/

theorem getAttr_eq_none_iff (l : List (String × PyVal)) (k : String) :
    getAttr l k = none ↔ ∀ p ∈ l, p.1 ≠ k := by
  unfold getAttr
  cases hf : l.find? (fun p => p.1 == k) with
  | none =>
    simp only []
    rw [List.find?_eq_none] at hf
    simpa using hf
  | some p =>
    simp only []
    constructor
    · intro h; exact absurd h (by simp)
    · intro h
      have hp := List.mem_of_find?_eq_some hf
      have := List.find?_some hf
      exact absurd (by simpa using this) (h p hp)

theorem getAttr_some_any (l : List (String × PyVal)) (k : String) (tv : PyVal)
    (h : getAttr l k = some tv) : l.any (fun p => p.1 == k) = true := by
  unfold getAttr at h
  cases hf : l.find? (fun p => p.1 == k) with
  | none => rw [hf] at h; simp at h
  | some p =>
    have hp := List.mem_of_find?_eq_some hf
    have hpk := List.find?_some hf
    exact List.any_eq_true.mpr ⟨p, hp, hpk⟩

theorem setAttr_fst_of_any (l : List (String × PyVal)) (a : String) (v : PyVal)
    (h : l.any (fun p => p.1 == a) = true) :
    (setAttr l a v).map Prod.fst = l.map Prod.fst := by
  unfold setAttr
  rw [if_pos h, List.map_map]
  apply List.map_congr_left
  intro p _
  by_cases hp : p.1 = a <;> simp [hp]

theorem getAttr_append_left (te ex : List (String × PyVal)) (k : String)
    (h : k ∉ ex.map Prod.fst) : getAttr (te ++ ex) k = getAttr te k := by
  unfold getAttr
  rw [List.find?_append]
  have hex : ex.find? (fun p => p.1 == k) = none := by
    rw [List.find?_eq_none]
    intro p hp
    simp only [Bool.not_eq_true, beq_eq_false_iff_ne, ne_eq]
    intro hpk
    exact h (by simpa [hpk] using List.mem_map_of_mem Prod.fst hp)
  cases hte : te.find? (fun p => p.1 == k) <;> simp [hte, hex, Option.orElse]

theorem setAttr_append_left (te ex : List (String × PyVal)) (k : String)
    (v : PyVal) (hk : te.any (fun p => p.1 == k) = true)
    (h : k ∉ ex.map Prod.fst) :
    setAttr (te ++ ex) k v = setAttr te k v ++ ex := by
  unfold setAttr
  have hany : (te ++ ex).any (fun p => p.1 == k) = true := by
    rw [List.any_append, hk, Bool.true_or]
  rw [if_pos hany, if_pos hk, List.map_append]
  congr 1
  have hid : ∀ p ∈ ex, (if p.1 == k then (p.1, v) else p) = p := by
    intro p hp
    have hne : ¬(p.1 == k) = true := by
      simp only [beq_iff_eq]
      intro hpk
      exact h (by simpa [hpk] using List.mem_map_of_mem Prod.fst hp)
    simp [hne]
  calc ex.map (fun p => if p.1 == k then (p.1, v) else p) = ex.map id :=
        List.map_congr_left (by simpa using hid)
    _ = ex := List.map_id ex

theorem copyDict_keys (rec : PyVal → PyVal → List String → CopyResult)
    (path : List String) (m : String) (se te : List (String × PyVal)) :
    ((copyDict rec path m se te).2.1).map Prod.fst = te.map Prod.fst := by
  induction se generalizing te with
  | nil => rfl
  | cons p rest ih =>
    obtain ⟨k, v⟩ := p
    unfold copyDict
    split
    · rfl
    · rename_i tv hget
      simp only []
      have hany := getAttr_some_any te k tv hget
      split
      · simpa using setAttr_fst_of_any te k _ hany
      · rw [ih (setAttr te k ((rec v tv (path ++ [k])).2.1))]
        exact setAttr_fst_of_any te k _ hany

theorem copyDict_nil (rec : PyVal → PyVal → List String → CopyResult)
    (path : List String) (m : String) (te : List (String × PyVal)) :
    copyDict rec path m [] te = ([], te, none) := rfl

theorem copyDict_cons_missing (rec : PyVal → PyVal → List String → CopyResult)
    (path : List String) (m : String) (k : String) (v : PyVal)
    (rest te : List (String × PyVal)) (hget : getAttr te k = none) :
    copyDict rec path m ((k, v) :: rest) te =
      ((k, v) :: rest, te,
        some (.SQADecodeError
          (m ++ "Encountered key only present in source dictionary: " ++ k ++ "."))) := by
  unfold copyDict
  simp [hget]

theorem copyDict_cons_err (rec : PyVal → PyVal → List String → CopyResult)
    (path : List String) (m : String) (k : String) (v : PyVal)
    (rest te : List (String × PyVal)) (tv : PyVal) (e : PyError)
    (hget : getAttr te k = some tv)
    (hrec : (rec v tv (path ++ [k])).2.2 = some e) :
    copyDict rec path m ((k, v) :: rest) te =
      ((k, (rec v tv (path ++ [k])).1) :: rest,
        setAttr te k ((rec v tv (path ++ [k])).2.1), some e) := by
  unfold copyDict
  simp [hget, hrec]

theorem copyDict_cons_ok (rec : PyVal → PyVal → List String → CopyResult)
    (path : List String) (m : String) (k : String) (v : PyVal)
    (rest te : List (String × PyVal)) (tv : PyVal)
    (hget : getAttr te k = some tv)
    (hrec : (rec v tv (path ++ [k])).2.2 = none) :
    copyDict rec path m ((k, v) :: rest) te =
      ((k, (rec v tv (path ++ [k])).1) ::
          (copyDict rec path m rest (setAttr te k ((rec v tv (path ++ [k])).2.1))).1,
        (copyDict rec path m rest (setAttr te k ((rec v tv (path ++ [k])).2.1))).2.1,
        (copyDict rec path m rest (setAttr te k ((rec v tv (path ++ [k])).2.1))).2.2) := by
  conv_lhs => unfold copyDict
  simp [hget, hrec]

theorem copyDict_append_none (rec : PyVal → PyVal → List String → CopyResult)
    (path : List String) (m : String) (l1 l2 te : List (String × PyVal))
    (herr : (copyDict rec path m l1 te).2.2 = none) :
    copyDict rec path m (l1 ++ l2) te =
      ((copyDict rec path m l1 te).1 ++
          (copyDict rec path m l2 ((copyDict rec path m l1 te).2.1)).1,
        (copyDict rec path m l2 ((copyDict rec path m l1 te).2.1)).2.1,
        (copyDict rec path m l2 ((copyDict rec path m l1 te).2.1)).2.2) := by
  induction l1 generalizing te with
  | nil => rfl
  | cons p rest ih =>
    obtain ⟨k, v⟩ := p
    cases hget : getAttr te k with
    | none => rw [copyDict_cons_missing rec path m k v rest te hget] at herr; simp at herr
    | some tv =>
      cases hrec : (rec v tv (path ++ [k])).2.2 with
      | some e => rw [copyDict_cons_err rec path m k v rest te tv e hget hrec] at herr; simp at herr
      | none =>
        rw [copyDict_cons_ok rec path m k v rest te tv hget hrec] at herr
        rw [List.cons_append, copyDict_cons_ok rec path m k v (rest ++ l2) te tv hget hrec,
          ih _ herr, copyDict_cons_ok rec path m k v rest te tv hget hrec]
        simp

theorem copyDict_extra (rec : PyVal → PyVal → List String → CopyResult)
    (path : List String) (m : String) (se te ex : List (String × PyVal))
    (hdisj : ∀ p ∈ se, p.1 ∉ ex.map Prod.fst) :
    copyDict rec path m se (te ++ ex) =
      ((copyDict rec path m se te).1, (copyDict rec path m se te).2.1 ++ ex,
        (copyDict rec path m se te).2.2) := by
  induction se generalizing te with
  | nil => rfl
  | cons p rest ih =>
    obtain ⟨k, v⟩ := p
    have hk : k ∉ ex.map Prod.fst := hdisj (k, v) (by simp)
    have hget2 := getAttr_append_left te ex k hk
    cases hget : getAttr te k with
    | none =>
      rw [hget] at hget2
      rw [copyDict_cons_missing rec path m k v rest _ hget2,
        copyDict_cons_missing rec path m k v rest te hget]
    | some tv =>
      rw [hget] at hget2
      have hany := getAttr_some_any te k tv hget
      cases hrec : (rec v tv (path ++ [k])).2.2 with
      | some e =>
        rw [copyDict_cons_err rec path m k v rest _ tv e hget2 hrec,
          copyDict_cons_err rec path m k v rest te tv e hget hrec,
          setAttr_append_left te ex k _ hany hk]
      | none =>
        rw [copyDict_cons_ok rec path m k v rest _ tv hget2 hrec,
          copyDict_cons_ok rec path m k v rest te tv hget hrec,
          setAttr_append_left te ex k _ hany hk,
          ih _ (fun q hq => hdisj q (by simp [hq]))]

theorem copy_db_ids_dict (se te : List (String × PyVal)) (path : List String)
    (hp : path.length ≤ 10) :
    copy_db_ids (.dict se) (.dict te) path =
      (.dict (copyDict (copyAux 11) path (msgPre (.dict se) (.dict te) path) se te).1,
        .dict (copyDict (copyAux 11) path (msgPre (.dict se) (.dict te) path) se te).2.1,
        (copyDict (copyAux 11) path (msgPre (.dict se) (.dict te) path) se te).2.2) := by
  rw [copy_db_ids_eq]
  unfold copyOne
  simp [Nat.not_lt.mpr hp, sameType]

/-- C5: (a) when the traversal of a dictionary pair reaches a key `k`
present in the source but absent from the target (all earlier source
entries having recursed without error), the call raises `SQADecodeError`
whose message names `k`; (b) keys present only in the target are
ignored: they change neither the error outcome nor the processing of
the shared entries, and are left untouched at the end of the target
dictionary. -/
theorem c5_dict_missing_and_extra_keys :
    (∀ (spre srest : List (String × PyVal)) (k : String) (v : PyVal)
        (te : List (String × PyVal)) (path : List String),
        path.length ≤ 10 →
        (copyDict (copyAux 11) path
            (msgPre (.dict (spre ++ (k, v) :: srest)) (.dict te) path) spre te).2.2 =
          none →
        getAttr te k = none →
        copy_db_ids (.dict (spre ++ (k, v) :: srest)) (.dict te) path =
          (.dict (spre ++ (k, v) :: srest),
            .dict (copyDict (copyAux 11) path
              (msgPre (.dict (spre ++ (k, v) :: srest)) (.dict te) path) spre te).2.1,
            some (.SQADecodeError
              (msgPre (.dict (spre ++ (k, v) :: srest)) (.dict te) path ++
                "Encountered key only present in source dictionary: " ++ k ++ ".")))) ∧
    (∀ (se te ex : List (String × PyVal)) (path : List String),
        path.length ≤ 10 →
        (∀ p ∈ ex, p.1 ∉ se.map Prod.fst) →
        ∃ te' err, copy_db_ids (.dict se) (.dict te) path = (.dict se, .dict te', err) ∧
          copy_db_ids (.dict se) (.dict (te ++ ex)) path =
            (.dict se, .dict (te' ++ ex), err)) := by
  constructor
  · intro spre srest k v te path hp herr hk
    rw [copy_db_ids_dict _ _ _ hp]
    rw [copyDict_append_none _ _ _ _ _ _ herr]
    have hsrc := copyDict_src (copyAux 11) (fun v tv p => copyAux_src 11 v tv p) path
      (msgPre (.dict (spre ++ (k, v) :: srest)) (.dict te) path) spre te
    have hk1 : getAttr ((copyDict (copyAux 11) path
        (msgPre (.dict (spre ++ (k, v) :: srest)) (.dict te) path) spre te).2.1) k = none := by
      rw [getAttr_eq_none_iff] at hk ⊢
      intro p hp'
      have hmem : p.1 ∈ te.map Prod.fst := by
        rw [← copyDict_keys (copyAux 11) path
          (msgPre (.dict (spre ++ (k, v) :: srest)) (.dict te) path) spre te]
        exact List.mem_map_of_mem Prod.fst hp'
      obtain ⟨q, hq, hq1⟩ := List.mem_map.mp hmem
      exact fun hpk => hk q hq (by rw [hq1, hpk])
    rw [copyDict_cons_missing _ _ _ _ _ _ _ hk1]
    simp [hsrc]
  · intro se te ex path hp hdisj
    refine ⟨(copyDict (copyAux 11) path (msgPre (.dict se) (.dict te) path) se te).2.1,
      (copyDict (copyAux 11) path (msgPre (.dict se) (.dict te) path) se te).2.2, ?_, ?_⟩
    · rw [copy_db_ids_dict _ _ _ hp]
      rw [copyDict_src (copyAux 11) (fun v tv p => copyAux_src 11 v tv p)]
    · rw [copy_db_ids_dict _ _ _ hp]
      have hmsg : msgPre (.dict se) (.dict (te ++ ex)) path =
          msgPre (.dict se) (.dict te) path := rfl
      have hdisj' : ∀ p ∈ se, p.1 ∉ ex.map Prod.fst := by
        intro q hq hmem
        obtain ⟨p, hpex, hp1⟩ := List.mem_map.mp hmem
        refine hdisj p hpex ?_
        rw [hp1]
        exact List.mem_map_of_mem Prod.fst hq
      rw [hmsg, copyDict_extra _ _ _ _ _ _ hdisj']
      rw [copyDict_src (copyAux 11) (fun v tv p => copyAux_src 11 v tv p)]

/-- Witness for C5: the spec's own example, source `{"a": 1}` against
the empty dict, and an extra-key example. -/
theorem c5_dict_missing_and_extra_keys_witness :
    copy_db_ids (.dict [("a", .int 1)]) (.dict []) [] =
      (.dict [("a", .int 1)], .dict [],
        some (.SQADecodeError
          (msgPre (.dict [("a", .int 1)]) (.dict []) [] ++
            "Encountered key only present in source dictionary: " ++ "a" ++ "."))) ∧
    (∃ te' err,
      copy_db_ids (.dict [("a", .int 1)]) (.dict [("a", .int 2)]) [] =
        (.dict [("a", .int 1)], .dict te', err) ∧
      copy_db_ids (.dict [("a", .int 1)]) (.dict [("a", .int 2), ("b", .int 7)]) [] =
        (.dict [("a", .int 1)], .dict (te' ++ [("b", .int 7)]), err)) :=
  ⟨by
    have h := c5_dict_missing_and_extra_keys.1 [] [] "a" (.int 1) [] []
      (by decide) rfl rfl
    simpa using h,
   c5_dict_missing_and_extra_keys.2 [("a", .int 1)] [("a", .int 2)] [("b", .int 7)] []
    (by decide) (by simp)⟩

/-! ### Order theory for the Python comparison -/

/-- Two values are strictly comparable (one is `<` the other). -/
def strictComp (a b : PyVal) : Bool := pyLt a b || pyLt b a

theorem strictComp_comm (a b : PyVal) : strictComp a b = strictComp b a :=
  Bool.or_comm _ _

theorem pyLt_asymm (a b : PyVal) (h : pyLt a b = true) : pyLt b a = false := by
  cases a <;> cases b <;> simp_all [pyLt]
  · omega
  · omega
  · exact le_of_lt h

theorem pyLt_trans (a b c : PyVal) (hab : pyLt a b = true)
    (hbc : pyLt b c = true) : pyLt a c = true := by
  cases a <;> cases b <;> cases c <;> simp_all [pyLt]
  · omega
  · omega
  · exact lt_trans hab hbc

theorem pyLt_of_not_pyLe (a b : PyVal) (h : pyLe a b = false) :
    pyLt b a = true := by
  unfold pyLe at h
  simpa using h

theorem insertSorted_perm {α : Type} (le : α → α → Bool) (x : α) (l : List α) :
    List.Perm (insertSorted le x l) (x :: l) := by
  induction l with
  | nil => exact List.Perm.refl _
  | cons y ys ih =>
    unfold insertSorted
    split
    · exact List.Perm.refl _
    · exact (ih.cons y).trans (List.Perm.swap x y ys)

theorem isort_perm {α : Type} (le : α → α → Bool) (l : List α) :
    List.Perm (isort le l) l := by
  induction l with
  | nil => exact List.Perm.refl _
  | cons x xs ih => exact (insertSorted_perm le x (isort le xs)).trans (ih.cons x)

/-- Inserting an element strictly comparable to all members of a
strictly sorted list yields a strictly sorted list. -/
theorem insertSorted_pairwise_lt (x : PyVal) (l : List PyVal)
    (hl : List.Pairwise (fun a b => pyLt a b = true) l)
    (hx : ∀ y ∈ l, strictComp x y = true) :
    List.Pairwise (fun a b => pyLt a b = true) (insertSorted pyLe x l) := by
  induction l with
  | nil => simp [insertSorted]
  | cons y ys ih =>
    unfold insertSorted
    split
    · rename_i hle
      have hxy : pyLt x y = true := by
        have hc := hx y (by simp)
        unfold strictComp at hc
        rcases Bool.or_eq_true_iff.mp hc with h | h
        · exact h
        · exfalso
          unfold pyLe at hle
          rw [h] at hle
          simp at hle
      refine List.Pairwise.cons ?_ hl
      intro z hz
      rcases List.mem_cons.mp hz with rfl | hz
      · exact hxy
      · exact pyLt_trans x y z hxy (List.rel_of_pairwise_cons hl hz)
    · rename_i hle
      have hlef : pyLe x y = false := by
        revert hle
        cases pyLe x y <;> simp
      have hyx : pyLt y x = true := pyLt_of_not_pyLe x y hlef
      refine List.Pairwise.cons ?_
        (ih hl.of_cons (fun z hz => hx z (List.mem_cons_of_mem _ hz)))
      intro z hz
      rcases (mem_insertSorted pyLe x ys z).mp hz with rfl | hz
      · exact hyx
      · exact List.rel_of_pairwise_cons hl hz

/-- Sorting a pairwise strictly comparable list yields a strictly
sorted list. -/
theorem isort_pairwise_lt (l : List PyVal)
    (hl : List.Pairwise (fun a b => strictComp a b = true) l) :
    List.Pairwise (fun a b => pyLt a b = true) (isort pyLe l) := by
  induction l with
  | nil => simp [isort]
  | cons x xs ih =>
    unfold isort
    refine insertSorted_pairwise_lt x (isort pyLe xs) (ih hl.of_cons) ?_
    intro y hy
    exact List.rel_of_pairwise_cons hl ((isort_perm pyLe xs).mem_iff.mp hy)

/-- Two strictly sorted lists that are permutations of each other are
equal. -/
theorem pairwise_lt_perm_eq (l1 l2 : List PyVal)
    (hp : List.Perm l1 l2)
    (h1 : List.Pairwise (fun a b => pyLt a b = true) l1)
    (h2 : List.Pairwise (fun a b => pyLt a b = true) l2) : l1 = l2 := by
  induction l1 generalizing l2 with
  | nil => simpa using hp.nil_eq
  | cons x t1 ih =>
    cases l2 with
    | nil => exact absurd hp.symm (by simp)
    | cons y t2 =>
      by_cases hxy : x = y
      · subst hxy
        rw [ih t2 hp.cons_inv h1.of_cons h2.of_cons]
      · exfalso
        have hxl2 : x ∈ y :: t2 := hp.mem_iff.mp (by simp)
        have hyl1 : y ∈ x :: t1 := hp.mem_iff.mpr (by simp)
        have hxt2 : x ∈ t2 := by
          rcases List.mem_cons.mp hxl2 with h | h
          · exact absurd h hxy
          · exact h
        have hyt1 : y ∈ t1 := by
          rcases List.mem_cons.mp hyl1 with h | h
          · exact absurd h.symm hxy
          · exact h
        have h1' := List.rel_of_pairwise_cons h1 hyt1
        have h2' := List.rel_of_pairwise_cons h2 hxt2
        rw [pyLt_asymm x y h1'] at h2'
        exact Bool.false_ne_true h2'

/-- Sorting is insensitive to the input order for pairwise strictly
comparable lists. -/
theorem isort_perm_eq (l l' : List PyVal) (hp : List.Perm l' l)
    (hl : List.Pairwise (fun a b => strictComp a b = true) l) :
    isort pyLe l' = isort pyLe l := by
  have hl' : List.Pairwise (fun a b => strictComp a b = true) l' := by
    rw [List.Perm.pairwise_iff
      (fun {x y} (h : strictComp x y = true) => (strictComp_comm y x).trans h) hp]
    exact hl
  exact pairwise_lt_perm_eq _ _
    (((isort_perm pyLe l').trans hp).trans (isort_perm pyLe l).symm)
    (isort_pairwise_lt l' hl') (isort_pairwise_lt l hl)

/-! ### Sorting indexed pairs projects to sorting the elements -/

theorem map_fst_insertSorted (x : PyVal × Nat) (l : List (PyVal × Nat)) :
    (insertSorted pairLe x l).map Prod.fst =
      insertSorted pyLe x.1 (l.map Prod.fst) := by
  induction l with
  | nil => rfl
  | cons y ys ih =>
    show (insertSorted pairLe x (y :: ys)).map Prod.fst = _
    unfold insertSorted
    split
    · rename_i h
      have h' : pyLe x.1 y.1 = true := h
      simp [insertSorted, h']
    · rename_i h
      have h0 : pairLe x y = false := by simpa using h
      have h' : pyLe x.1 y.1 = false := h0
      simp [insertSorted, h', ih]

theorem map_fst_isort (l : List (PyVal × Nat)) :
    (isort pairLe l).map Prod.fst = isort pyLe (l.map Prod.fst) := by
  induction l with
  | nil => rfl
  | cons x xs ih =>
    show (insertSorted pairLe x (isort pairLe xs)).map Prod.fst = _
    rw [map_fst_insertSorted, ih]
    rfl

/-! ### Canonical pairwise processing of the sorted element sequences -/

/-- The sorted-pairs recursion of the list branch, on the bare element
sequences: the processed target elements (stopping at and including the
first failing pair) and the first error. -/
def procVals (rec : PyVal → PyVal → List String → CopyResult)
    (path : List String) : Nat → List PyVal → List PyVal →
      List PyVal × Option PyError
  | _, [], _ => ([], none)
  | _, _ :: _, [] => ([], none)
  | k, s :: ss, t :: ts =>
    let r := rec s t (path ++ [toString k])
    match r.2.2 with
    | some e => ([r.2.1], some e)
    | none =>
      let r2 := procVals rec path (k + 1) ss ts
      (r.2.1 :: r2.1, r2.2)

theorem copyPairs_tgt (rec : PyVal → PyVal → List String → CopyResult)
    (path : List String) (k : Nat) (sp tp : List (PyVal × Nat)) :
    (copyPairs rec path k sp tp).2.1 =
      List.zip (tp.map Prod.snd)
        (procVals rec path k (sp.map Prod.fst) (tp.map Prod.fst)).1 ∧
    (copyPairs rec path k sp tp).2.2 =
      (procVals rec path k (sp.map Prod.fst) (tp.map Prod.fst)).2 := by
  induction sp generalizing k tp with
  | nil => cases tp <;> simp [copyPairs, procVals]
  | cons p ss ih =>
    cases tp with
    | nil => simp [copyPairs, procVals]
    | cons q ts =>
      show ((copyPairs rec path k (p :: ss) (q :: ts)).2.1 = _) ∧ _
      unfold copyPairs
      unfold procVals
      cases hrec : (rec p.1 q.1 (path ++ [toString k])).2.2 with
      | some e => simp [hrec]
      | none =>
        obtain ⟨h1, h2⟩ := ih (k + 1) ts
        simp [hrec, h1, h2]

theorem procVals_len (rec : PyVal → PyVal → List String → CopyResult)
    (path : List String) (k : Nat) (ss ts : List PyVal) :
    (procVals rec path k ss ts).1.length ≤ ts.length := by
  induction ss generalizing k ts with
  | nil => cases ts <;> simp [procVals]
  | cons s ss ih =>
    cases ts with
    | nil => simp [procVals]
    | cons t ts =>
      unfold procVals
      cases hrec : (rec s t (path ++ [toString k])).2.2 with
      | some e => simp [hrec]
      | none =>
        simp only [hrec]
        have := ih (k + 1) ts
        simpa using Nat.succ_le_succ this

/-! ### Scattering values along a permutation of positions -/

/-- The elements of `l` (walked with absolute position starting at `n`)
whose positions are not in `is`. -/
def keepOut (l : List PyVal) (n : Nat) (is : List Nat) : List PyVal :=
  match l with
  | [] => []
  | x :: xs => if is.contains n then keepOut xs (n + 1) is else x :: keepOut xs (n + 1) is

theorem keepOut_nil (l : List PyVal) (n : Nat) : keepOut l n [] = l := by
  induction l generalizing n with
  | nil => rfl
  | cons x xs ih => simp [keepOut, ih]

theorem keepOut_irrel (l : List PyVal) (n j : Nat) (is : List Nat)
    (h : j < n) : keepOut l n (j :: is) = keepOut l n is := by
  induction l generalizing n with
  | nil => rfl
  | cons x xs ih =>
    unfold keepOut
    have hne : (n == j) = false := by
      simp only [beq_eq_false_iff_ne, ne_eq]
      omega
    rw [show (j :: is).contains n = ((n == j) || is.contains n) from rfl, hne,
      Bool.false_or, ih (n + 1) (by omega)]

theorem keepOut_set_split (l : List PyVal) (n j : Nat) (v : PyVal)
    (is : List Nat) (hj : (n + j) ∉ is) (hlen : j < l.length) :
    List.Perm (keepOut (l.set j v) n is) (v :: keepOut l n ((n + j) :: is)) := by
  induction l generalizing n j with
  | nil => simp at hlen
  | cons x xs ih =>
    cases j with
    | zero =>
      have hnotin : is.contains n = false := by
        rw [← Bool.not_eq_true, List.elem_iff]
        simpa using hj
      show List.Perm
        (if is.contains n then keepOut xs (n + 1) is else v :: keepOut xs (n + 1) is)
        (v :: (if (n :: is).contains n then keepOut xs (n + 1) (n :: is)
          else x :: keepOut xs (n + 1) (n :: is)))
      have hself : ((n :: is).contains n) = true := List.elem_iff.mpr (by simp)
      rw [hnotin, hself]
      simp only [Bool.false_eq_true, if_false, if_true]
      rw [keepOut_irrel xs (n + 1) n is (by omega)]
    | succ j' =>
      have hsucc : n + (j' + 1) = (n + 1) + j' := by omega
      have hj' : (n + 1) + j' ∉ is := by rw [← hsucc]; exact hj
      have hlen' : j' < xs.length := by simpa using hlen
      rw [show (x :: xs).set (j' + 1) v = x :: xs.set j' v from rfl, hsucc]
      show List.Perm
        (if is.contains n then keepOut (xs.set j' v) (n + 1) is
          else x :: keepOut (xs.set j' v) (n + 1) is)
        (v :: (if (((n + 1) + j') :: is).contains n then keepOut xs (n + 1) (((n + 1) + j') :: is)
          else x :: keepOut xs (n + 1) (((n + 1) + j') :: is)))
      have hne : ((((n + 1) + j') :: is).contains n) = is.contains n := by
        rw [show ((((n + 1) + j') :: is).contains n) =
          ((n == (n + 1) + j') || is.contains n) from rfl]
        have hneq : (n == (n + 1) + j') = false := by
          simp only [beq_eq_false_iff_ne, ne_eq]
          omega
        rw [hneq, Bool.false_or]
      rw [hne]
      cases hc : is.contains n with
      | true =>
        simp only [if_true]
        exact ih (n + 1) j' hj' hlen'
      | false =>
        simp only [Bool.false_eq_true, if_false]
        exact ((ih (n + 1) j' hj' hlen').cons x).trans
          (List.Perm.swap v x (keepOut xs (n + 1) (((n + 1) + j') :: is)))

theorem contains_true_of_mem (is : List Nat) (n : Nat) (h : n ∈ is) :
    is.contains n = true := by
  induction is with
  | nil => simp at h
  | cons c cs ih =>
    rw [show ((c :: cs).contains n) = ((n == c) || cs.contains n) from rfl]
    rcases List.mem_cons.mp h with rfl | h
    · simp
    · rw [ih h, Bool.or_true]

theorem mem_of_contains_true (is : List Nat) (n : Nat)
    (h : is.contains n = true) : n ∈ is := by
  induction is with
  | nil => simp [List.contains] at h
  | cons c cs ih =>
    rw [show ((c :: cs).contains n) = ((n == c) || cs.contains n) from rfl] at h
    rcases Bool.or_eq_true_iff.mp h with h | h
    · simp only [beq_iff_eq] at h
      simp [h]
    · exact List.mem_cons_of_mem _ (ih h)

theorem keepOut_covered (l : List PyVal) (n : Nat) (is : List Nat)
    (h : ∀ m, n ≤ m → m < n + l.length → m ∈ is) : keepOut l n is = [] := by
  induction l generalizing n with
  | nil => rfl
  | cons x xs ih =>
    show (if is.contains n then keepOut xs (n + 1) is else x :: keepOut xs (n + 1) is) = []
    rw [contains_true_of_mem is n (h n le_rfl (by simp)), if_pos rfl]
    exact ih (n + 1) (fun m hm1 hm2 => h m (by omega) (by simpa using by omega))

theorem applyUpdates_perm (ws : List (Nat × PyVal)) (t : List PyVal)
    (hnd : (ws.map Prod.fst).Nodup) (hb : ∀ w ∈ ws, w.1 < t.length) :
    List.Perm (applyUpdates t ws)
      (ws.map Prod.snd ++ keepOut t 0 (ws.map Prod.fst)) := by
  induction ws generalizing t with
  | nil =>
    simp only [List.map_nil, List.nil_append, keepOut_nil]
    exact List.Perm.refl _
  | cons w rest ih =>
    obtain ⟨i, v⟩ := w
    show List.Perm (applyUpdates (t.set i v) rest) _
    have hnd' : (rest.map Prod.fst).Nodup := (List.nodup_cons.mp (by simpa using hnd)).2
    have hi_not : i ∉ rest.map Prod.fst := (List.nodup_cons.mp (by simpa using hnd)).1
    have hb' : ∀ u ∈ rest, u.1 < (t.set i v).length := by
      intro u hu
      simpa using hb u (List.mem_cons_of_mem _ hu)
    have h1 := ih (t.set i v) hnd' hb'
    have hsplit := keepOut_set_split t 0 i v (rest.map Prod.fst)
      (by simpa using hi_not) (hb (i, v) (by simp))
    rw [Nat.zero_add] at hsplit
    refine h1.trans ?_
    refine (List.Perm.append_left (rest.map Prod.snd) hsplit).trans ?_
    exact List.perm_middle

theorem applyUpdates_getElem?_not_mem (ws : List (Nat × PyVal)) (t : List PyVal)
    (p : Nat) (h : p ∉ ws.map Prod.fst) : (applyUpdates t ws)[p]? = t[p]? := by
  induction ws generalizing t with
  | nil => rfl
  | cons w rest ih =>
    simp only [List.map_cons, List.mem_cons, not_or] at h
    show (applyUpdates (t.set w.1 w.2) rest)[p]? = t[p]?
    rw [ih (t.set w.1 w.2) h.2]
    exact List.getElem?_set_ne (fun hh => h.1 hh.symm)

theorem zip_append_truncate {α β : Type} (A : List α) (vs D : List β) :
    List.zip A (vs ++ D) = List.zip A vs ++ List.zip (A.drop vs.length) D := by
  induction vs generalizing A with
  | nil => simp
  | cons v vs' ih =>
    cases A with
    | nil => simp
    | cons a A' => simp [List.zip_cons_cons, ih]

theorem zip_snd_fst (l : List (PyVal × Nat)) :
    List.zip (l.map Prod.snd) (l.map Prod.fst) = l.map (fun p => (p.2, p.1)) := by
  induction l with
  | nil => rfl
  | cons p ps ih => simp [List.zip_cons_cons, ih]

theorem withIdx_map_fst {α : Type} (l : List α) (n : Nat) :
    (withIdx l n).map Prod.fst = l := by
  induction l generalizing n with
  | nil => rfl
  | cons x xs ih => simp [withIdx, ih]

theorem withIdx_map_snd {α : Type} (l : List α) (n : Nat) :
    (withIdx l n).map Prod.snd = List.range' n l.length := by
  induction l generalizing n with
  | nil => rfl
  | cons x xs ih =>
    rw [show withIdx (x :: xs) n = (x, n) :: withIdx xs (n + 1) from rfl]
    rw [show List.range' n (x :: xs).length = n :: List.range' (n + 1) xs.length from rfl]
    simp [ih]

theorem withIdx_length {α : Type} (l : List α) (n : Nat) :
    (withIdx l n).length = l.length := by
  induction l generalizing n with
  | nil => rfl
  | cons x xs ih => simp [withIdx, ih]

theorem zip_map_fst_take {α β : Type} (A : List α) (vs : List β)
    (h : vs.length ≤ A.length) :
    (List.zip A vs).map Prod.fst = A.take vs.length := by
  induction vs generalizing A with
  | nil => simp
  | cons v vs' ih =>
    cases A with
    | nil => simp at h
    | cons a A' =>
      simp only [List.zip_cons_cons, List.map_cons, List.length_cons, List.take_succ_cons]
      rw [ih A' (by simpa using h)]

theorem applyUpdates_append (l : List PyVal) (u w : List (Nat × PyVal)) :
    applyUpdates l (u ++ w) = applyUpdates (applyUpdates l u) w :=
  List.foldl_append _ _ _ _

/-- Writing a full-coverage batch of values along a permutation of the
positions of `ys` (with any trailing writes no-ops) permutes the written
values. -/
theorem applyUpdates_zip_perm (A : List Nat) (vs D ys : List PyVal)
    (hAr : List.Perm A (List.range ys.length))
    (hlenP : (vs ++ D).length = ys.length)
    (hnoop : ∀ w ∈ List.zip (A.drop vs.length) D,
      (applyUpdates ys (List.zip A vs))[w.1]? = some w.2) :
    List.Perm (applyUpdates ys (List.zip A vs)) (vs ++ D) := by
  have hAnd : A.Nodup := List.Perm.nodup hAr.symm (List.nodup_range _)
  have hAlen : A.length = ys.length := by simpa using hAr.length_eq
  have h1 : applyUpdates ys (List.zip A (vs ++ D)) = applyUpdates ys (List.zip A vs) := by
    rw [zip_append_truncate, applyUpdates_append]
    exact applyUpdates_id _ _ hnoop
  have hlenA : A.length = (vs ++ D).length := by rw [hAlen, hlenP]
  have hfull_fst : (List.zip A (vs ++ D)).map Prod.fst = A :=
    List.map_fst_zip _ _ (le_of_eq hlenA)
  have hfull_snd : (List.zip A (vs ++ D)).map Prod.snd = vs ++ D :=
    List.map_snd_zip _ _ (le_of_eq hlenA.symm)
  have hperm := applyUpdates_perm (List.zip A (vs ++ D)) ys
    (by rw [hfull_fst]; exact hAnd)
    (by
      intro w hw
      have : w.1 ∈ A := by
        rw [← hfull_fst]
        exact List.mem_map_of_mem Prod.fst hw
      have := hAr.mem_iff.mp this
      exact List.mem_range.mp this)
  rw [hfull_snd, hfull_fst] at hperm
  have hkeep : keepOut ys 0 A = [] := by
    refine keepOut_covered ys 0 A (fun m' h1' h2' => ?_)
    exact hAr.mem_iff.mpr (List.mem_range.mpr (by omega))
  rw [hkeep, List.append_nil] at hperm
  rw [h1] at hperm
  exact hperm

/-- The target collection left behind by the sorted pairwise recursion
is a permutation of the canonically processed sorted elements followed
by the untouched tail of the sorted target. -/
theorem copyColl_update_perm (rec : PyVal → PyVal → List String → CopyResult)
    (path : List String) (xs ys : List PyVal) :
    List.Perm
      (applyUpdates ys
        (copyPairs rec path 0 (isort pairLe (withIdx xs 0))
          (isort pairLe (withIdx ys 0))).2.1)
      ((procVals rec path 0 (isort pyLe xs) (isort pyLe ys)).1 ++
        (isort pyLe ys).drop
          (procVals rec path 0 (isort pyLe xs) (isort pyLe ys)).1.length) := by
  have hfstS : (isort pairLe (withIdx xs 0)).map Prod.fst = isort pyLe xs := by
    rw [map_fst_isort, withIdx_map_fst]
  have hfstT : (isort pairLe (withIdx ys 0)).map Prod.fst = isort pyLe ys := by
    rw [map_fst_isort, withIdx_map_fst]
  obtain ⟨hut, herr⟩ :=
    copyPairs_tgt rec path 0 (isort pairLe (withIdx xs 0)) (isort pairLe (withIdx ys 0))
  rw [hut, hfstS, hfstT]
  have htperm : List.Perm (isort pairLe (withIdx ys 0)) (withIdx ys 0) := isort_perm _ _
  have hTn : (isort pyLe ys).length = ys.length := (isort_perm pyLe ys).length_eq
  have hAr : List.Perm ((isort pairLe (withIdx ys 0)).map Prod.snd)
      (List.range ys.length) := by
    have := htperm.map Prod.snd
    rw [withIdx_map_snd, ← List.range_eq_range'] at this
    exact this
  have hAnd : ((isort pairLe (withIdx ys 0)).map Prod.snd).Nodup :=
    List.Perm.nodup hAr.symm (List.nodup_range _)
  have hm : (procVals rec path 0 (isort pyLe xs) (isort pyLe ys)).1.length ≤ ys.length := by
    rw [← hTn]
    exact procVals_len rec path 0 _ _
  have htIdx_get : ∀ q ∈ isort pairLe (withIdx ys 0), ys[q.2]? = some q.1 := by
    intro q hq
    have hmem : (q.1, q.2) ∈ withIdx ys 0 := htperm.mem_iff.mp (by simpa using hq)
    have := withIdx_mem ys 0 q.1 q.2 hmem
    simpa using this.2
  refine applyUpdates_zip_perm _ _ _ _ hAr ?_ ?_
  · simp only [List.length_append, List.length_drop]
    omega
  · intro w hw
    have hzip_eq : List.zip
        (((isort pairLe (withIdx ys 0)).map Prod.snd).drop
          (procVals rec path 0 (isort pyLe xs) (isort pyLe ys)).1.length)
        ((isort pyLe ys).drop
          (procVals rec path 0 (isort pyLe xs) (isort pyLe ys)).1.length) =
        ((isort pairLe (withIdx ys 0)).drop
          (procVals rec path 0 (isort pyLe xs) (isort pyLe ys)).1.length).map
          (fun p => (p.2, p.1)) := by
      rw [← hfstT, ← List.map_drop, ← List.map_drop, zip_snd_fst]
    rw [hzip_eq] at hw
    obtain ⟨q, hq, hqw⟩ := List.mem_map.mp hw
    have hqmem : q ∈ isort pairLe (withIdx ys 0) := List.mem_of_mem_drop hq
    have hget := htIdx_get q hqmem
    have hw1 : w.1 = q.2 := by rw [← hqw]
    have hw2 : w.2 = q.1 := by rw [← hqw]
    rw [hw1, hw2]
    rw [applyUpdates_getElem?_not_mem]
    · exact hget
    · have hfst_take : (List.zip ((isort pairLe (withIdx ys 0)).map Prod.snd)
          (procVals rec path 0 (isort pyLe xs) (isort pyLe ys)).1).map Prod.fst =
          ((isort pairLe (withIdx ys 0)).map Prod.snd).take
            (procVals rec path 0 (isort pyLe xs) (isort pyLe ys)).1.length := by
        refine zip_map_fst_take _ _ ?_
        have hlen2 : ((isort pairLe (withIdx ys 0)).map Prod.snd).length = ys.length := by
          simpa using hAr.length_eq
        omega
      rw [hfst_take]
      have hq2 : q.2 ∈ ((isort pairLe (withIdx ys 0)).map Prod.snd).drop
          (procVals rec path 0 (isort pyLe xs) (isort pyLe ys)).1.length := by
        rw [← List.map_drop]
        exact List.mem_map_of_mem Prod.snd hq
      intro hmem_take
      exact (List.disjoint_take_drop hAnd le_rfl) hmem_take hq2

theorem copyColl_len_ne (rec : PyVal → PyVal → List String → CopyResult)
    (path : List String) (m : String) (xs ys : List PyVal)
    (hlen : xs.length ≠ ys.length) :
    copyColl rec path m xs ys =
      (xs, ys, some (.SQADecodeError (m ++ "Encountered lists of different lengths."))) := by
  unfold copyColl
  simp [bne_iff_ne, hlen]

theorem copyColl_empty (rec : PyVal → PyVal → List String → CopyResult)
    (path : List String) (m : String) (ys : List PyVal) (h : ys.length = 0) :
    copyColl rec path m [] ys = ([], ys, none) := by
  unfold copyColl
  simp [h]

theorem copyColl_typeObj (rec : PyVal → PyVal → List String → CopyResult)
    (path : List String) (m : String) (x0 : PyVal) (rest ys : List PyVal)
    (hlen : (x0 :: rest).length = ys.length) (ht : isTypeObj x0 = true) :
    copyColl rec path m (x0 :: rest) ys = (x0 :: rest, ys, none) := by
  unfold copyColl
  simp [hlen, ht]

theorem copyColl_sortable (rec : PyVal → PyVal → List String → CopyResult)
    (path : List String) (m : String) (x0 : PyVal) (rest ys : List PyVal)
    (hlen : (x0 :: rest).length = ys.length) (ht : isTypeObj x0 = false)
    (hu : isUnsortableBase x0 = false) :
    copyColl rec path m (x0 :: rest) ys =
      (applyUpdates (x0 :: rest)
          (copyPairs rec path 0 (isort pairLe (withIdx (x0 :: rest) 0))
            (isort pairLe (withIdx ys 0))).1,
        applyUpdates ys
          (copyPairs rec path 0 (isort pairLe (withIdx (x0 :: rest) 0))
            (isort pairLe (withIdx ys 0))).2.1,
        (copyPairs rec path 0 (isort pairLe (withIdx (x0 :: rest) 0))
          (isort pairLe (withIdx ys 0))).2.2) := by
  unfold copyColl
  simp [hlen, ht, hu]

theorem copy_db_ids_coll (b : Bool) (xs ys : List PyVal) (path : List String)
    (hp : path.length ≤ 10) :
    copy_db_ids (mkColl b xs) (mkColl b ys) path =
      (mkColl b (copyColl (copyAux 11) path (msgPre (mkColl b xs) (mkColl b ys) path) xs ys).1,
        mkColl b (copyColl (copyAux 11) path (msgPre (mkColl b xs) (mkColl b ys) path) xs ys).2.1,
        (copyColl (copyAux 11) path (msgPre (mkColl b xs) (mkColl b ys) path) xs ys).2.2) := by
  rw [copy_db_ids_eq]
  cases b <;>
    · unfold copyOne
      simp [Nat.not_lt.mpr hp, mkColl, sameType]

theorem msgPre_coll_const (b : Bool) (xs ys xs' ys' : List PyVal)
    (path : List String) :
    msgPre (mkColl b xs') (mkColl b ys') path = msgPre (mkColl b xs) (mkColl b ys) path := by
  cases b <;> rfl

theorem strictComp_head_ok (a c : PyVal) (h : strictComp a c = true) :
    isTypeObj a = false ∧ isUnsortableBase a = false := by
  cases a <;> cases c <;> simp_all [strictComp, pyLt, isTypeObj, isUnsortableBase]
  rcases h with ⟨⟨h1, _⟩, _⟩ | ⟨⟨_, h1⟩, _⟩ <;> exact h1

/-- C4: for two same-kind collections of mutually strictly orderable
elements, the outcome of `copy_db_ids` does not depend on the original
(pre-sort) ordering of either side: permuting both inputs yields the
same error and a target collection holding the same multiset of
elements — each element receives the identifier of its sorted-order
counterpart. -/
theorem c4_order_independent (b : Bool) (ss ss' ts ts' : List PyVal)
    (path : List String) (hp : path.length ≤ 10)
    (hss : List.Perm ss' ss) (hts : List.Perm ts' ts)
    (hcs : List.Pairwise (fun a c => strictComp a c = true) ss)
    (hct : List.Pairwise (fun a c => strictComp a c = true) ts) :
    ∃ r r' e,
      copy_db_ids (mkColl b ss) (mkColl b ts) path = (mkColl b ss, mkColl b r, e) ∧
      copy_db_ids (mkColl b ss') (mkColl b ts') path = (mkColl b ss', mkColl b r', e) ∧
      List.Perm r' r := by
  rw [copy_db_ids_coll b ss ts path hp, copy_db_ids_coll b ss' ts' path hp,
    msgPre_coll_const b ss ts ss' ts' path]
  set m := msgPre (mkColl b ss) (mkColl b ts) path with hm
  have hlss := hss.length_eq
  have hlts := hts.length_eq
  have hkey : (copyColl (copyAux 11) path m ss' ts').2.2 =
      (copyColl (copyAux 11) path m ss ts).2.2 ∧
      List.Perm (copyColl (copyAux 11) path m ss' ts').2.1
        (copyColl (copyAux 11) path m ss ts).2.1 := by
    by_cases hlen : ss.length = ts.length
    · cases ss with
      | nil =>
        have hss0 : ss' = [] := List.perm_nil.mp hss
        have hts0 : ts.length = 0 := by simp at hlen; omega
        have hts0' : ts'.length = 0 := by omega
        rw [hss0, copyColl_empty _ _ _ _ hts0', copyColl_empty _ _ _ _ hts0]
        exact ⟨rfl, hts⟩
      | cons x0 rest =>
        cases rest with
        | nil =>
          have hss1 : ss' = [x0] := List.perm_singleton.mp hss
          obtain ⟨t0, hts0⟩ : ∃ t0, ts = [t0] := by
            cases ts with
            | nil => simp at hlen
            | cons t0 trest =>
              cases trest with
              | nil => exact ⟨t0, rfl⟩
              | cons _ _ => simp at hlen
          have hts1 : ts' = [t0] := by
            rw [hts0] at hts
            exact List.perm_singleton.mp hts
          rw [hss1, hts0, hts1]
          exact ⟨rfl, List.Perm.refl _⟩
        | cons x1 rest2 =>
          have hok := strictComp_head_ok x0 x1 (List.rel_of_pairwise_cons hcs (by simp))
          have hcs' : List.Pairwise (fun a c => strictComp a c = true) ss' := by
            rw [List.Perm.pairwise_iff
              (fun {x y} (h : strictComp x y = true) => (strictComp_comm y x).trans h) hss]
            exact hcs
          obtain ⟨y0, y1, yrest, hss2⟩ : ∃ y0 y1 yrest, ss' = y0 :: y1 :: yrest := by
            cases ss' with
            | nil => simp at hlss
            | cons y0 ys2 =>
              cases ys2 with
              | nil => simp at hlss
              | cons y1 yrest => exact ⟨y0, y1, yrest, rfl⟩
          have hok' : isTypeObj y0 = false ∧ isUnsortableBase y0 = false := by
            rw [hss2] at hcs'
            exact strictComp_head_ok y0 y1 (List.rel_of_pairwise_cons hcs' (by simp))
          have hS : isort pyLe ss' = isort pyLe (x0 :: x1 :: rest2) :=
            isort_perm_eq (x0 :: x1 :: rest2) ss' hss hcs
          have hT : isort pyLe ts' = isort pyLe ts := isort_perm_eq ts ts' hts hct
          rw [hss2] at hS
          have hlen' : (y0 :: y1 :: yrest).length = ts'.length := by
            rw [← hss2]
            omega
          rw [hss2, copyColl_sortable (copyAux 11) path m y0 (y1 :: yrest) ts' hlen'
              hok'.1 hok'.2,
            copyColl_sortable (copyAux 11) path m x0 (x1 :: rest2) ts hlen hok.1 hok.2]
          have h1 := copyPairs_tgt (copyAux 11) path 0
            (isort pairLe (withIdx (x0 :: x1 :: rest2) 0)) (isort pairLe (withIdx ts 0))
          have h2 := copyPairs_tgt (copyAux 11) path 0
            (isort pairLe (withIdx (y0 :: y1 :: yrest) 0)) (isort pairLe (withIdx ts' 0))
          have hfstS : (isort pairLe (withIdx (x0 :: x1 :: rest2) 0)).map Prod.fst =
              isort pyLe (x0 :: x1 :: rest2) := by
            rw [map_fst_isort, withIdx_map_fst]
          have hfstS' : (isort pairLe (withIdx (y0 :: y1 :: yrest) 0)).map Prod.fst =
              isort pyLe (y0 :: y1 :: yrest) := by
            rw [map_fst_isort, withIdx_map_fst]
          have hfstT : (isort pairLe (withIdx ts 0)).map Prod.fst = isort pyLe ts := by
            rw [map_fst_isort, withIdx_map_fst]
          have hfstT' : (isort pairLe (withIdx ts' 0)).map Prod.fst = isort pyLe ts' := by
            rw [map_fst_isort, withIdx_map_fst]
          constructor
          · show (copyPairs (copyAux 11) path 0 _ _).2.2 =
              (copyPairs (copyAux 11) path 0 _ _).2.2
            rw [h2.2, h1.2, hfstS', hfstS, hfstT', hfstT, hS, hT]
          · show List.Perm (applyUpdates ts' _) (applyUpdates ts _)
            have hp2 := copyColl_update_perm (copyAux 11) path (y0 :: y1 :: yrest) ts'
            have hp1 := copyColl_update_perm (copyAux 11) path (x0 :: x1 :: rest2) ts
            rw [hS, hT] at hp2
            exact hp2.trans hp1.symm
    · have hlen' : ss'.length ≠ ts'.length := by omega
      rw [copyColl_len_ne _ _ _ _ _ hlen, copyColl_len_ne _ _ _ _ _ hlen']
      exact ⟨rfl, hts⟩
  refine ⟨(copyColl (copyAux 11) path m ss ts).2.1,
    (copyColl (copyAux 11) path m ss' ts').2.1,
    (copyColl (copyAux 11) path m ss ts).2.2, ?_, ?_, hkey.2⟩
  · rw [copyColl_src (copyAux 11) (fun v tv p => copyAux_src 11 v tv p)]
  · rw [copyColl_src (copyAux 11) (fun v tv p => copyAux_src 11 v tv p), hkey.1]

/-- A sortable object with the given sort key and identifier value. -/
def arm (k : Int) (id : PyVal) : PyVal := .base "Arm" true k [("x_db_id", id)]

/-- Witness for C4: the spec's example, a two-element source with ids
1 and 2 against the reversed target. -/
theorem c4_order_independent_witness :
    ([] : List String).length ≤ 10 ∧
      List.Pairwise (fun a c => strictComp a c = true) [arm 1 (.int 1), arm 2 (.int 2)] ∧
      List.Pairwise (fun a c => strictComp a c = true) [arm 1 .pyNone, arm 2 .pyNone] ∧
      ∃ r r' e,
        copy_db_ids (mkColl true [arm 1 (.int 1), arm 2 (.int 2)])
            (mkColl true [arm 1 .pyNone, arm 2 .pyNone]) [] =
          (mkColl true [arm 1 (.int 1), arm 2 (.int 2)], mkColl true r, e) ∧
        copy_db_ids (mkColl true [arm 2 (.int 2), arm 1 (.int 1)])
            (mkColl true [arm 2 .pyNone, arm 1 .pyNone]) [] =
          (mkColl true [arm 2 (.int 2), arm 1 (.int 1)], mkColl true r', e) ∧
        List.Perm r' r :=
  ⟨by decide,
   by
    refine List.Pairwise.cons (fun a' ha' => ?_) (List.Pairwise.cons (by simp) List.Pairwise.nil)
    rcases List.mem_cons.mp ha' with rfl | ha'
    · rfl
    · simp at ha',
   by
    refine List.Pairwise.cons (fun a' ha' => ?_) (List.Pairwise.cons (by simp) List.Pairwise.nil)
    rcases List.mem_cons.mp ha' with rfl | ha'
    · rfl
    · simp at ha',
   c4_order_independent true [arm 1 (.int 1), arm 2 (.int 2)]
    [arm 2 (.int 2), arm 1 (.int 1)] [arm 1 .pyNone, arm 2 .pyNone]
    [arm 2 .pyNone, arm 1 .pyNone] [] (by decide)
    (List.Perm.swap _ _ _) (List.Perm.swap _ _ _)
    (by
      refine List.Pairwise.cons (fun a' ha' => ?_) (List.Pairwise.cons (by simp) List.Pairwise.nil)
      rcases List.mem_cons.mp ha' with rfl | ha'
      · rfl
      · simp at ha')
    (by
      refine List.Pairwise.cons (fun a' ha' => ?_) (List.Pairwise.cons (by simp) List.Pairwise.nil)
      rcases List.mem_cons.mp ha' with rfl | ha'
      · rfl
      · simp at ha')⟩

/-! ### Spec-side predicates and the expected result of a clean copy -/

/-- No attribute anywhere in the value (within `f` levels) is an
identifier field. -/
def idFreeB : Nat → PyVal → Bool
  | 0, _ => false
  | f + 1, v =>
    match v with
    | .base _ _ _ attrs => attrs.all (fun p => !(isDbIdField p.1) && idFreeB f p.2)
    | .list xs => xs.all (idFreeB f)
    | .set xs => xs.all (idFreeB f)
    | .tuple xs => xs.all (idFreeB f)
    | .dict es => es.all (fun p => idFreeB f p.2)
    | _ => true

/-- The kind of a value under which Python's comparison is a genuine
total order and the embedded `pyLt` agrees with it: integers, strings,
and sortable identifiable objects (`SortableBase`, ordered by sort key).
Values outside these kinds, or of differing kinds, are not mutually
orderable: Python's `sorted` raises `TypeError` on them, an error path
the embedding does not represent, so the alignment predicate below
excludes them rather than letting the modelled sort succeed silently. -/
def sortKind : PyVal → Option Nat
  | .int _ => some 0
  | .str _ => some 1
  | .base _ sb _ _ => if sb then some 2 else none
  | _ => none

/-- All elements of the collection are mutually orderable: they share a
single sortable kind, so `sorted` succeeds on the collection. -/
def sortableElems : List PyVal → Bool
  | [] => true
  | x0 :: rest =>
    match sortKind x0 with
    | none => false
    | some k => rest.all (fun x => sortKind x == some k)

/-- The isomorphism hypothesis of the claim, restricted as its
counterexample forces: source and target agree in type at every
corresponding position, collections have equal lengths and attribute
dictionaries equal (duplicate-free) key sets with attributes matched by
name, non-identifier scalar values agree, and additionally every
collection consists of mutually orderable elements (so the sort the
code performs succeeds) and identifier fields do not hide inside
skipped attributes or tuples (regions the traversal never enters).  The
fuel bounds the structure depth within the recursion guard. -/
def alignedB : Nat → PyVal → PyVal → Bool
  | 0, _, _ => false
  | f + 1, s, t =>
    match s, t with
    | .base c sb k sa, .base c' sb' k' ta =>
      c == c' && sb == sb' && k == k' &&
        decide ((sa.map Prod.fst).Nodup) &&
        decide ((ta.map Prod.fst).Nodup) &&
        sa.all (fun p =>
          if isDbIdField p.1 then (getAttr ta p.1).isSome
          else if isSkippedAttr p.1 then true
          else match getAttr ta p.1 with
            | some tv => alignedB f p.2 tv
            | none => false) &&
        ta.all (fun q =>
          (getAttr sa q.1).isSome &&
            (if isDbIdField q.1 then true
             else if isSkippedAttr q.1 then idFreeB f q.2 else true))
    | .list xs, .list ys =>
      xs.length == ys.length && sortableElems xs &&
        (xs.zip ys).all (fun pq => alignedB f pq.1 pq.2)
    | .set xs, .set ys =>
      xs.length == ys.length && sortableElems xs &&
        (xs.zip ys).all (fun pq => alignedB f pq.1 pq.2)
    | .dict se, .dict te =>
      decide ((se.map Prod.fst).Nodup) && decide ((te.map Prod.fst).Nodup) &&
        se.all (fun p =>
          match getAttr te p.1 with
          | some tv => alignedB f p.2 tv
          | none => false) &&
        te.all (fun p => (getAttr se p.1).isSome)
    | .tuple xs, .tuple ys =>
      xs.length == ys.length && xs.all (idFreeB f) && ys.all (idFreeB f)
    | .int a, .int b => a == b
    | .str a, .str b => a == b
    | .pyNone, .pyNone => true
    | .typeObj a, .typeObj b => a == b
    | _, _ => false

/-- One target attribute entry of the expected result: identifier
attributes take the source's value, other shared attributes recurse via
`E`, attributes absent from the source stay unchanged. -/
def expAttrsMap (E : PyVal → PyVal → PyVal) (sa : List (String × PyVal))
    (q : String × PyVal) : String × PyVal :=
  match getAttr sa q.1 with
  | none => q
  | some sv => if isDbIdField q.1 then (q.1, sv) else (q.1, E sv q.2)

/-- One target dictionary entry of the expected result: shared keys
recurse via `E`, extra target keys stay unchanged. -/
def expDictMap (E : PyVal → PyVal → PyVal) (se : List (String × PyVal))
    (q : String × PyVal) : String × PyVal :=
  match getAttr se q.1 with
  | none => q
  | some sv => (q.1, E sv q.2)

/-- The result the claim describes: the target with every identifier
attribute replaced by the source's value at the corresponding position
and everything else unchanged, recursing positionally through matching
composite structure. -/
def expectedAux : Nat → PyVal → PyVal → PyVal
  | 0, _, t => t
  | f + 1, s, t =>
    match s, t with
    | .base _ _ _ sa, .base c' sb' k' ta =>
      .base c' sb' k' (ta.map (expAttrsMap (expectedAux f) sa))
    | .list xs, .list ys =>
      .list (List.zipWith (expectedAux f) xs ys ++ ys.drop xs.length)
    | .set xs, .set ys =>
      .set (List.zipWith (expectedAux f) xs ys ++ ys.drop xs.length)
    | .dict se, .dict te =>
      .dict (te.map (expDictMap (expectedAux f) se))
    | _, _ => t

theorem zipWith_snd_of_pointwise {α β : Type} (g : α → β → β) (xs : List α)
    (ys : List β) (h : ∀ pq ∈ xs.zip ys, g pq.1 pq.2 = pq.2) :
    List.zipWith g xs ys = ys.take xs.length := by
  induction xs generalizing ys with
  | nil => simp
  | cons x xs ih =>
    cases ys with
    | nil => simp
    | cons y ys =>
      simp only [List.zipWith_cons_cons, List.length_cons, List.take_succ_cons]
      rw [h (x, y) (by simp [List.zip_cons_cons]), ih ys
        (fun pq hpq => h pq (by simp [List.zip_cons_cons, hpq]))]

theorem expectedAux_idFree (f : Nat) (sv tv : PyVal)
    (h : idFreeB f tv = true) : expectedAux f sv tv = tv := by
  induction f generalizing sv tv with
  | zero => rfl
  | succ f ih =>
    cases sv <;> cases tv <;> try rfl
    case base.base csv ssv ksv sa c' sb' k' ta =>
      show PyVal.base c' sb' k' _ = PyVal.base c' sb' k' ta
      have hta : ∀ q ∈ ta, !(isDbIdField q.1) && idFreeB f q.2 = true := by
        simpa [idFreeB] using h
      congr 1
      have : ∀ q ∈ ta, expAttrsMap (expectedAux f) sa q = q := by
        intro q hq
        obtain ⟨hdb, hfree⟩ := Bool.and_eq_true_iff.mp (hta q hq)
        simp only [Bool.not_eq_true'] at hdb
        have hfree' : idFreeB f q.2 = true := by simpa using hfree
        cases hget : getAttr sa q.1 with
        | none => simp [expAttrsMap, hget]
        | some sv' => simp [expAttrsMap, hget, hdb, ih sv' q.2 hfree']
      calc ta.map _ = ta.map id := List.map_congr_left this
        _ = ta := List.map_id ta
    case list.list xs ys =>
      show PyVal.list _ = PyVal.list ys
      have hys : ∀ y ∈ ys, idFreeB f y = true := by simpa [idFreeB] using h
      congr 1
      rw [zipWith_snd_of_pointwise _ _ _
        (fun pq hpq => ih pq.1 pq.2 (hys pq.2 (List.of_mem_zip hpq).2))]
      exact List.take_append_drop _ _
    case set.set xs ys =>
      show PyVal.set _ = PyVal.set ys
      have hys : ∀ y ∈ ys, idFreeB f y = true := by simpa [idFreeB] using h
      congr 1
      rw [zipWith_snd_of_pointwise _ _ _
        (fun pq hpq => ih pq.1 pq.2 (hys pq.2 (List.of_mem_zip hpq).2))]
      exact List.take_append_drop _ _
    case dict.dict se te =>
      show PyVal.dict _ = PyVal.dict te
      have hte : ∀ q ∈ te, idFreeB f q.2 = true := by simpa [idFreeB] using h
      congr 1
      have : ∀ q ∈ te, expDictMap (expectedAux f) se q = q := by
        intro q hq
        cases hget : getAttr se q.1 with
        | none => simp [expDictMap, hget]
        | some sv' => simp [expDictMap, hget, ih sv' q.2 (hte q hq)]
      calc te.map _ = te.map id := List.map_congr_left this
        _ = te := List.map_id te

theorem alignedB_sameType (f : Nat) (s t : PyVal)
    (h : alignedB f s t = true) : sameType s t = true := by
  cases f with
  | zero => simp [alignedB] at h
  | succ f => cases s <;> cases t <;> simp_all [alignedB, sameType]

theorem sortableElems_head (x0 : PyVal) (rest : List PyVal)
    (h : sortableElems (x0 :: rest) = true) :
    isTypeObj x0 = false ∧ isUnsortableBase x0 = false := by
  unfold sortableElems at h
  cases x0 with
  | base c sb k attrs =>
    cases sb with
    | false => simp [sortKind] at h
    | true => exact ⟨rfl, rfl⟩
  | list xs => simp [sortKind] at h
  | set xs => simp [sortKind] at h
  | tuple xs => simp [sortKind] at h
  | dict es => simp [sortKind] at h
  | int n => exact ⟨rfl, rfl⟩
  | str s => exact ⟨rfl, rfl⟩
  | pyNone => simp [sortKind] at h
  | typeObj n => simp [sortKind] at h

theorem alignedB_lt (f g : Nat) (a b c d : PyVal)
    (hab : alignedB f a b = true) (hcd : alignedB g c d = true) :
    pyLt a c = pyLt b d := by
  cases f with
  | zero => simp [alignedB] at hab
  | succ f =>
    cases g with
    | zero => simp [alignedB] at hcd
    | succ g =>
      cases a <;> cases b <;> simp [alignedB] at hab <;>
        cases c <;> cases d <;> simp [alignedB] at hcd <;>
          simp_all [pyLt]

theorem all_zip_forall2 {α β : Type} (P : α → β → Bool) (xs : List α) (ys : List β)
    (hlen : xs.length = ys.length)
    (h : (xs.zip ys).all (fun pq => P pq.1 pq.2) = true) :
    List.Forall₂ (fun a b => P a b = true) xs ys := by
  induction xs generalizing ys with
  | nil =>
    cases ys with
    | nil => exact List.Forall₂.nil
    | cons _ _ => simp at hlen
  | cons x xs ih =>
    cases ys with
    | nil => simp at hlen
    | cons y ys =>
      simp only [List.zip_cons_cons, List.all_cons, Bool.and_eq_true] at h
      exact List.Forall₂.cons h.1 (ih ys (by simpa using hlen) h.2)

theorem forall2_withIdx {R : PyVal → PyVal → Prop} (xs ys : List PyVal)
    (h : List.Forall₂ R xs ys) (n : Nat) :
    List.Forall₂ (fun p q : PyVal × Nat => R p.1 q.1 ∧ p.2 = q.2)
      (withIdx xs n) (withIdx ys n) := by
  induction h generalizing n with
  | nil => exact List.Forall₂.nil
  | cons hxy hrest ih => exact List.Forall₂.cons ⟨hxy, rfl⟩ (ih (n + 1))

theorem forall2_insertSorted (f : Nat) (p q : PyVal × Nat)
    (l m : List (PyVal × Nat))
    (hpq : alignedB f p.1 q.1 = true ∧ p.2 = q.2)
    (hlm : List.Forall₂
      (fun p q : PyVal × Nat => alignedB f p.1 q.1 = true ∧ p.2 = q.2) l m) :
    List.Forall₂ (fun p q : PyVal × Nat => alignedB f p.1 q.1 = true ∧ p.2 = q.2)
      (insertSorted pairLe p l) (insertSorted pairLe q m) := by
  induction hlm with
  | nil => exact List.Forall₂.cons hpq List.Forall₂.nil
  | @cons x y l' m' hxy hrest ih =>
    show List.Forall₂ _ (insertSorted pairLe p (x :: l')) (insertSorted pairLe q (y :: m'))
    unfold insertSorted
    have hcond : pairLe p x = pairLe q y := by
      unfold pairLe pyLe
      rw [alignedB_lt f f x.1 y.1 p.1 q.1 hxy.1 hpq.1]
    rw [hcond]
    cases hc : pairLe q y with
    | true =>
      simp only [if_true]
      exact List.Forall₂.cons hpq (List.Forall₂.cons hxy hrest)
    | false =>
      simp only [Bool.false_eq_true, if_false]
      exact List.Forall₂.cons hxy ih

theorem forall2_isort (f : Nat) (l m : List (PyVal × Nat))
    (h : List.Forall₂
      (fun p q : PyVal × Nat => alignedB f p.1 q.1 = true ∧ p.2 = q.2) l m) :
    List.Forall₂ (fun p q : PyVal × Nat => alignedB f p.1 q.1 = true ∧ p.2 = q.2)
      (isort pairLe l) (isort pairLe m) := by
  induction h with
  | nil => exact List.Forall₂.nil
  | @cons x y l' m' hxy hrest ih => exact forall2_insertSorted f x y _ _ hxy ih

theorem forall2_zip_mem {α β : Type} {R : α → β → Prop} (l : List α) (m : List β)
    (h : List.Forall₂ R l m) : ∀ pq ∈ l.zip m, R pq.1 pq.2 := by
  induction h with
  | nil => intro pq hpq; simp at hpq
  | @cons x y l' m' hxy hrest ih =>
    intro pq hpq
    rcases List.mem_cons.mp (by simpa [List.zip_cons_cons] using hpq) with rfl | hpq'
    · exact hxy
    · exact ih pq hpq'

theorem getAttr_cons_ne (a x : String) (w : PyVal) (l : List (String × PyVal))
    (h : x ≠ a) : getAttr ((a, w) :: l) x = getAttr l x := by
  unfold getAttr
  rw [List.find?_cons_of_neg _ (by simp only [beq_iff_eq]; exact fun hh => h hh.symm)]

theorem getAttr_mem_unique (l : List (String × PyVal))
    (hnd : (l.map Prod.fst).Nodup) (p : String × PyVal) (hp : p ∈ l) :
    getAttr l p.1 = some p.2 := by
  induction l with
  | nil => simp at hp
  | cons q rest ih =>
    rcases List.mem_cons.mp hp with rfl | hp'
    · unfold getAttr
      rw [List.find?_cons_of_pos _ (by simp)]
    · have hq : q.1 ∉ rest.map Prod.fst := (List.nodup_cons.mp (by simpa using hnd)).1
      have hne : p.1 ≠ q.1 := by
        intro hh
        exact hq (hh ▸ List.mem_map_of_mem Prod.fst hp')
      rw [show q = (q.1, q.2) from rfl, getAttr_cons_ne q.1 p.1 q.2 rest hne]
      exact ih (List.nodup_cons.mp (by simpa using hnd)).2 hp'

theorem getAttr_map_setAttr_self (l : List (String × PyVal)) (k : String)
    (v : PyVal) (h : l.any (fun p => p.1 == k) = true) :
    getAttr (l.map (fun p => if p.1 == k then (p.1, v) else p)) k = some v := by
  induction l with
  | nil => simp at h
  | cons q rest ih =>
    by_cases hq : q.1 = k
    · unfold getAttr
      rw [List.map_cons, if_pos (by simp [hq])]
      rw [List.find?_cons_of_pos _ (by simp [hq])]
    · have h' : rest.any (fun p => p.1 == k) = true := by
        simpa [hq] using h
      rw [List.map_cons, if_neg (by simp [hq])]
      rw [show getAttr (q :: rest.map _) k = getAttr (rest.map _) k from by
        rw [show q = (q.1, q.2) from rfl, getAttr_cons_ne q.1 k q.2 _ (fun hh => hq hh.symm)]]
      exact ih h'

theorem getAttr_setAttr_self (l : List (String × PyVal)) (k : String)
    (v tv : PyVal) (hget : getAttr l k = some tv) :
    getAttr (setAttr l k v) k = some v := by
  have hany := getAttr_some_any l k tv hget
  unfold setAttr
  rw [if_pos hany]
  exact getAttr_map_setAttr_self l k v hany

theorem getAttr_setAttr_ne (l : List (String × PyVal)) (k k' : String)
    (v : PyVal) (h : k' ≠ k) : getAttr (setAttr l k v) k' = getAttr l k' := by
  unfold setAttr
  split
  · rename_i hany
    clear hany
    induction l with
    | nil => rfl
    | cons q rest ih =>
      by_cases hq : q.1 = k
      · rw [List.map_cons, if_pos (by simp [hq])]
        rw [getAttr_cons_ne q.1 k' v _ (by rw [hq]; exact h)]
        rw [show q = (q.1, q.2) from rfl, getAttr_cons_ne q.1 k' q.2 rest (by rw [hq]; exact h)]
        exact ih
      · rw [List.map_cons, if_neg (by simp [hq])]
        by_cases hk' : q.1 = k'
        · unfold getAttr
          rw [List.find?_cons_of_pos _ (by simp [hk']), List.find?_cons_of_pos _ (by simp [hk'])]
        · rw [show q = (q.1, q.2) from rfl, getAttr_cons_ne q.1 k' q.2 _ (fun hh => hk' hh.symm),
            getAttr_cons_ne q.1 k' q.2 rest (fun hh => hk' hh.symm)]
          exact ih
  · exact getAttr_append_left l [(k, v)] k' (by simp [h])

theorem setAttr_cons_head (a : String) (tv v : PyVal) (ta : List (String × PyVal))
    (h : a ∉ ta.map Prod.fst) : setAttr ((a, tv) :: ta) a v = (a, v) :: ta := by
  unfold setAttr
  rw [if_pos (by simp)]
  rw [List.map_cons, if_pos (by simp)]
  congr 1
  have : ∀ p ∈ ta, (if p.1 == a then (p.1, v) else p) = p := by
    intro p hp
    rw [if_neg]
    simp only [beq_iff_eq]
    intro hh
    exact h (hh ▸ List.mem_map_of_mem Prod.fst hp)
  calc ta.map _ = ta.map id := List.map_congr_left this
    _ = ta := List.map_id ta

theorem setAttr_cons_ne (a x : String) (w u : PyVal) (ta : List (String × PyVal))
    (h : x ≠ a) : setAttr ((a, w) :: ta) x u = (a, w) :: setAttr ta x u := by
  unfold setAttr
  have hhead : ((a, w).1 == x) = false := by
    simp only [beq_eq_false_iff_ne, ne_eq]
    exact fun hh => h hh.symm
  rw [show ((a, w) :: ta).any (fun p => p.1 == x) = (((a, w).1 == x) || ta.any (fun p => p.1 == x)) from rfl, hhead, Bool.false_or]
  split
  · rw [List.map_cons, if_neg (by simp only [beq_iff_eq]; exact fun hh => h hh.symm)]
  · rfl

theorem copyAttrs_cons_dbid (rec : PyVal → PyVal → List String → CopyResult)
    (path : List String) (a : String) (v : PyVal)
    (rest ta : List (String × PyVal)) (h : isDbIdField a = true) :
    copyAttrs rec path ((a, v) :: rest) ta =
      ((a, v) :: (copyAttrs rec path rest (setAttr ta a v)).1,
        (copyAttrs rec path rest (setAttr ta a v)).2.1,
        (copyAttrs rec path rest (setAttr ta a v)).2.2) := by
  conv_lhs => unfold copyAttrs
  simp [h]

theorem copyAttrs_cons_skip (rec : PyVal → PyVal → List String → CopyResult)
    (path : List String) (a : String) (v : PyVal)
    (rest ta : List (String × PyVal)) (hdb : isDbIdField a = false)
    (hsk : isSkippedAttr a = true) :
    copyAttrs rec path ((a, v) :: rest) ta =
      ((a, v) :: (copyAttrs rec path rest ta).1,
        (copyAttrs rec path rest ta).2.1,
        (copyAttrs rec path rest ta).2.2) := by
  conv_lhs => unfold copyAttrs
  simp [hdb, hsk]

theorem copyAttrs_cons_missing (rec : PyVal → PyVal → List String → CopyResult)
    (path : List String) (a : String) (v : PyVal)
    (rest ta : List (String × PyVal)) (hdb : isDbIdField a = false)
    (hsk : isSkippedAttr a = false) (hget : getAttr ta a = none) :
    copyAttrs rec path ((a, v) :: rest) ta =
      ((a, v) :: rest, ta, some (.AttributeError a)) := by
  conv_lhs => unfold copyAttrs
  simp [hdb, hsk, hget]

theorem copyAttrs_cons_err (rec : PyVal → PyVal → List String → CopyResult)
    (path : List String) (a : String) (v : PyVal)
    (rest ta : List (String × PyVal)) (tv : PyVal) (e : PyError)
    (hdb : isDbIdField a = false) (hsk : isSkippedAttr a = false)
    (hget : getAttr ta a = some tv)
    (hrec : (rec v tv (path ++ [a])).2.2 = some e) :
    copyAttrs rec path ((a, v) :: rest) ta =
      ((a, (rec v tv (path ++ [a])).1) :: rest,
        setAttr ta a ((rec v tv (path ++ [a])).2.1), some e) := by
  conv_lhs => unfold copyAttrs
  simp [hdb, hsk, hget, hrec]

theorem copyAttrs_cons_ok (rec : PyVal → PyVal → List String → CopyResult)
    (path : List String) (a : String) (v : PyVal)
    (rest ta : List (String × PyVal)) (tv : PyVal)
    (hdb : isDbIdField a = false) (hsk : isSkippedAttr a = false)
    (hget : getAttr ta a = some tv)
    (hrec : (rec v tv (path ++ [a])).2.2 = none) :
    copyAttrs rec path ((a, v) :: rest) ta =
      ((a, (rec v tv (path ++ [a])).1) ::
          (copyAttrs rec path rest (setAttr ta a ((rec v tv (path ++ [a])).2.1))).1,
        (copyAttrs rec path rest (setAttr ta a ((rec v tv (path ++ [a])).2.1))).2.1,
        (copyAttrs rec path rest (setAttr ta a ((rec v tv (path ++ [a])).2.1))).2.2) := by
  conv_lhs => unfold copyAttrs
  simp [hdb, hsk, hget, hrec]

theorem copyAttrs_headskip (rec : PyVal → PyVal → List String → CopyResult)
    (path : List String) (a : String) (w : PyVal)
    (sa ta : List (String × PyVal)) (h : a ∉ sa.map Prod.fst) :
    copyAttrs rec path sa ((a, w) :: ta) =
      ((copyAttrs rec path sa ta).1,
        (a, w) :: (copyAttrs rec path sa ta).2.1,
        (copyAttrs rec path sa ta).2.2) := by
  induction sa generalizing ta with
  | nil => rfl
  | cons p rest ih =>
    obtain ⟨x, v⟩ := p
    have hxa : x ≠ a := by
      intro hh
      exact h (by simp [hh])
    have hrest : a ∉ rest.map Prod.fst := fun hh => h (by simp [hh])
    cases hdb : isDbIdField x with
    | true =>
      rw [copyAttrs_cons_dbid rec path x v rest _ hdb,
        copyAttrs_cons_dbid rec path x v rest ta hdb,
        setAttr_cons_ne a x w v ta hxa, ih _ hrest]
    | false =>
      cases hsk : isSkippedAttr x with
      | true =>
        rw [copyAttrs_cons_skip rec path x v rest _ hdb hsk,
          copyAttrs_cons_skip rec path x v rest ta hdb hsk, ih _ hrest]
      | false =>
        have hget2 : getAttr ((a, w) :: ta) x = getAttr ta x :=
          getAttr_cons_ne a x w ta hxa
        cases hget : getAttr ta x with
        | none =>
          rw [copyAttrs_cons_missing rec path x v rest _ hdb hsk (hget2.trans hget),
            copyAttrs_cons_missing rec path x v rest ta hdb hsk hget]
        | some tv =>
          cases hrec : (rec v tv (path ++ [x])).2.2 with
          | some e =>
            rw [copyAttrs_cons_err rec path x v rest _ tv e hdb hsk (hget2.trans hget) hrec,
              copyAttrs_cons_err rec path x v rest ta tv e hdb hsk hget hrec,
              setAttr_cons_ne a x w _ ta hxa]
          | none =>
            rw [copyAttrs_cons_ok rec path x v rest _ tv hdb hsk (hget2.trans hget) hrec,
              copyAttrs_cons_ok rec path x v rest ta tv hdb hsk hget hrec,
              setAttr_cons_ne a x w _ ta hxa, ih _ hrest]

theorem expAttrsMap_cons_ne (E : PyVal → PyVal → PyVal) (a : String) (v : PyVal)
    (sa : List (String × PyVal)) (q : String × PyVal) (h : q.1 ≠ a) :
    expAttrsMap E ((a, v) :: sa) q = expAttrsMap E sa q := by
  unfold expAttrsMap
  rw [getAttr_cons_ne a q.1 v sa h]

theorem expDictMap_cons_ne (E : PyVal → PyVal → PyVal) (a : String) (v : PyVal)
    (se : List (String × PyVal)) (q : String × PyVal) (h : q.1 ≠ a) :
    expDictMap E ((a, v) :: se) q = expDictMap E se q := by
  unfold expDictMap
  rw [getAttr_cons_ne a q.1 v se h]

theorem getAttr_cons_self (a : String) (v : PyVal) (l : List (String × PyVal)) :
    getAttr ((a, v) :: l) a = some v := by
  unfold getAttr
  rw [List.find?_cons_of_pos _ (by simp)]

theorem getAttr_none_of_not_mem (l : List (String × PyVal)) (k : String)
    (h : k ∉ l.map Prod.fst) : getAttr l k = none := by
  rw [getAttr_eq_none_iff]
  intro p hp hpk
  exact h (hpk ▸ List.mem_map_of_mem Prod.fst hp)

theorem copyAttrs_expected (rec : PyVal → PyVal → List String → CopyResult)
    (f : Nat) (path : List String)
    (hrec : ∀ s' t' p', alignedB f s' t' = true → p'.length + f ≤ 11 →
      rec s' t' p' = (s', expectedAux f s' t', none))
    (hpath : path.length + 1 + f ≤ 11) :
    ∀ (sa ta : List (String × PyVal)),
      (sa.map Prod.fst).Nodup →
      (ta.map Prod.fst).Nodup →
      (∀ p ∈ sa,
        (isDbIdField p.1 = true → (getAttr ta p.1).isSome = true) ∧
        (isDbIdField p.1 = false → isSkippedAttr p.1 = false →
          ∃ tv, getAttr ta p.1 = some tv ∧ alignedB f p.2 tv = true)) →
      (∀ q ∈ ta, isDbIdField q.1 = false → isSkippedAttr q.1 = true →
        idFreeB f q.2 = true) →
      copyAttrs rec path sa ta = (sa, ta.map (expAttrsMap (expectedAux f) sa), none) := by
  intro sa
  induction sa with
  | nil =>
    intro ta _ _ _ _
    have h0 : ∀ q ∈ ta, expAttrsMap (expectedAux f) [] q = q := by
      intro q _
      unfold expAttrsMap
      rfl
    show ([], ta, none) = ([], ta.map (expAttrsMap (expectedAux f) []), none)
    rw [show ta.map (expAttrsMap (expectedAux f) []) = ta from by
      calc ta.map _ = ta.map id := List.map_congr_left h0
        _ = ta := List.map_id ta]
  | cons p rest ih =>
    intro ta hnds hndt hsrc htgt
    obtain ⟨a, v⟩ := p
    have hnds' : (rest.map Prod.fst).Nodup := (List.nodup_cons.mp (by simpa using hnds)).2
    have hnota : a ∉ rest.map Prod.fst := (List.nodup_cons.mp (by simpa using hnds)).1
    have hgetrest : getAttr rest a = none := getAttr_none_of_not_mem rest a hnota
    cases hdb : isDbIdField a with
    | true =>
      obtain ⟨tv, hget⟩ : ∃ tv, getAttr ta a = some tv := by
        have h1 := (hsrc (a, v) (by simp)).1 hdb
        cases hg : getAttr ta a with
        | none => rw [hg] at h1; exact absurd h1 (by simp)
        | some tv => exact ⟨tv, rfl⟩
      have hanya := getAttr_some_any ta a tv hget
      have hndt1 : ((setAttr ta a v).map Prod.fst).Nodup := by
        rw [setAttr_fst_of_any ta a v hanya]
        exact hndt
      have hsrc1 : ∀ q ∈ rest,
          (isDbIdField q.1 = true → (getAttr (setAttr ta a v) q.1).isSome = true) ∧
          (isDbIdField q.1 = false → isSkippedAttr q.1 = false →
            ∃ tv', getAttr (setAttr ta a v) q.1 = some tv' ∧
              alignedB f q.2 tv' = true) := by
        intro q hq
        have hne : q.1 ≠ a := fun hh => hnota (hh ▸ List.mem_map_of_mem Prod.fst hq)
        have hgq : getAttr (setAttr ta a v) q.1 = getAttr ta q.1 :=
          getAttr_setAttr_ne ta a q.1 v hne
        obtain ⟨hA, hB⟩ := hsrc q (by simp [hq])
        exact ⟨fun h1 => by rw [hgq]; exact hA h1,
          fun h1 h2 => by rw [hgq]; exact hB h1 h2⟩
      have htgt1 : ∀ q ∈ setAttr ta a v, isDbIdField q.1 = false →
          isSkippedAttr q.1 = true → idFreeB f q.2 = true := by
        intro q hq hqdb hqsk
        unfold setAttr at hq
        rw [if_pos hanya] at hq
        obtain ⟨q0, hq0, hq0eq⟩ := List.mem_map.mp hq
        by_cases hq0a : q0.1 = a
        · have hqv : q = (q0.1, v) := by
            rw [← hq0eq]
            show (if q0.1 == a then (q0.1, v) else q0) = (q0.1, v)
            rw [if_pos (by simp [hq0a])]
          have hq1 : q.1 = a := by rw [hqv, hq0a]
          rw [hq1, hdb] at hqdb
          exact Bool.noConfusion hqdb
        · have hqq : q = q0 := by
            rw [← hq0eq]
            show (if q0.1 == a then (q0.1, v) else q0) = q0
            rw [if_neg (by simp [hq0a])]
          rw [hqq] at hqdb hqsk ⊢
          exact htgt q0 hq0 hqdb hqsk
      rw [copyAttrs_cons_dbid rec path a v rest ta hdb,
        ih (setAttr ta a v) hnds' hndt1 hsrc1 htgt1]
      have hmap : (setAttr ta a v).map (expAttrsMap (expectedAux f) rest) =
          ta.map (expAttrsMap (expectedAux f) ((a, v) :: rest)) := by
        unfold setAttr
        rw [if_pos hanya, List.map_map]
        refine List.map_congr_left (fun q hq => ?_)
        by_cases hqa : q.1 = a
        · show expAttrsMap (expectedAux f) rest (if q.1 == a then (q.1, v) else q) =
            expAttrsMap (expectedAux f) ((a, v) :: rest) q
          rw [if_pos (by simp [hqa])]
          unfold expAttrsMap
          rw [hqa, hgetrest, getAttr_cons_self]
          simp [hdb]
        · show expAttrsMap (expectedAux f) rest (if q.1 == a then (q.1, v) else q) =
            expAttrsMap (expectedAux f) ((a, v) :: rest) q
          rw [if_neg (by simp [hqa]),
            expAttrsMap_cons_ne (expectedAux f) a v rest q hqa]
      rw [hmap]
    | false =>
      cases hsk : isSkippedAttr a with
      | true =>
        have hsrc1 : ∀ q ∈ rest,
            (isDbIdField q.1 = true → (getAttr ta q.1).isSome = true) ∧
            (isDbIdField q.1 = false → isSkippedAttr q.1 = false →
              ∃ tv, getAttr ta q.1 = some tv ∧ alignedB f q.2 tv = true) :=
          fun q hq => hsrc q (by simp [hq])
        rw [copyAttrs_cons_skip rec path a v rest ta hdb hsk,
          ih ta hnds' hndt hsrc1 htgt]
        have hmap : ta.map (expAttrsMap (expectedAux f) rest) =
            ta.map (expAttrsMap (expectedAux f) ((a, v) :: rest)) := by
          refine List.map_congr_left (fun q hq => ?_)
          by_cases hqa : q.1 = a
          · have hfree : idFreeB f q.2 = true :=
              htgt q hq (by rw [hqa]; exact hdb) (by rw [hqa]; exact hsk)
            unfold expAttrsMap
            rw [hqa, hgetrest, getAttr_cons_self]
            simp only [hdb, Bool.false_eq_true, if_false,
              expectedAux_idFree f v q.2 hfree]
            rw [← hqa]
          · rw [expAttrsMap_cons_ne (expectedAux f) a v rest q hqa]
        rw [hmap]
      | false =>
        obtain ⟨tv, hget, hali⟩ := (hsrc (a, v) (by simp)).2 hdb hsk
        have hreceq := hrec v tv (path ++ [a]) hali (by simpa using hpath)
        have hrecerr : (rec v tv (path ++ [a])).2.2 = none := by rw [hreceq]
        have hrecsrc : (rec v tv (path ++ [a])).1 = v := by rw [hreceq]
        have hrectgt : (rec v tv (path ++ [a])).2.1 = expectedAux f v tv := by
          rw [hreceq]
        have hanya := getAttr_some_any ta a tv hget
        have hndt1 : ((setAttr ta a (expectedAux f v tv)).map Prod.fst).Nodup := by
          rw [setAttr_fst_of_any ta a _ hanya]
          exact hndt
        have hsrc1 : ∀ q ∈ rest,
            (isDbIdField q.1 = true →
              (getAttr (setAttr ta a (expectedAux f v tv)) q.1).isSome = true) ∧
            (isDbIdField q.1 = false → isSkippedAttr q.1 = false →
              ∃ tv', getAttr (setAttr ta a (expectedAux f v tv)) q.1 = some tv' ∧
                alignedB f q.2 tv' = true) := by
          intro q hq
          have hne : q.1 ≠ a := fun hh => hnota (hh ▸ List.mem_map_of_mem Prod.fst hq)
          have hgq : getAttr (setAttr ta a (expectedAux f v tv)) q.1 = getAttr ta q.1 :=
            getAttr_setAttr_ne ta a q.1 _ hne
          obtain ⟨hA, hB⟩ := hsrc q (by simp [hq])
          exact ⟨fun h1 => by rw [hgq]; exact hA h1,
            fun h1 h2 => by rw [hgq]; exact hB h1 h2⟩
        have htgt1 : ∀ q ∈ setAttr ta a (expectedAux f v tv), isDbIdField q.1 = false →
            isSkippedAttr q.1 = true → idFreeB f q.2 = true := by
          intro q hq hqdb hqsk
          unfold setAttr at hq
          rw [if_pos hanya] at hq
          obtain ⟨q0, hq0, hq0eq⟩ := List.mem_map.mp hq
          by_cases hq0a : q0.1 = a
          · have hqv : q = (q0.1, expectedAux f v tv) := by
              rw [← hq0eq]
              show (if q0.1 == a then (q0.1, expectedAux f v tv) else q0) =
                (q0.1, expectedAux f v tv)
              rw [if_pos (by simp [hq0a])]
            have hq1 : q.1 = a := by rw [hqv, hq0a]
            rw [hq1, hsk] at hqsk
            exact Bool.noConfusion hqsk
          · have hqq : q = q0 := by
              rw [← hq0eq]
              show (if q0.1 == a then (q0.1, expectedAux f v tv) else q0) = q0
              rw [if_neg (by simp [hq0a])]
            rw [hqq] at hqdb hqsk ⊢
            exact htgt q0 hq0 hqdb hqsk
        rw [copyAttrs_cons_ok rec path a v rest ta tv hdb hsk hget hrecerr,
          hrecsrc, hrectgt,
          ih (setAttr ta a (expectedAux f v tv)) hnds' hndt1 hsrc1 htgt1]
        have hmap : (setAttr ta a (expectedAux f v tv)).map
              (expAttrsMap (expectedAux f) rest) =
            ta.map (expAttrsMap (expectedAux f) ((a, v) :: rest)) := by
          unfold setAttr
          rw [if_pos hanya, List.map_map]
          refine List.map_congr_left (fun q hq => ?_)
          by_cases hqa : q.1 = a
          · have hq2 : q.2 = tv := by
              have h2 := getAttr_mem_unique ta hndt q hq
              rw [hqa, hget] at h2
              exact (Option.some.injEq _ _ ▸ h2).symm
            show expAttrsMap (expectedAux f) rest
                (if q.1 == a then (q.1, expectedAux f v tv) else q) =
              expAttrsMap (expectedAux f) ((a, v) :: rest) q
            rw [if_pos (by simp [hqa])]
            unfold expAttrsMap
            rw [hqa, hgetrest, getAttr_cons_self, hq2]
            simp [hdb]
          · show expAttrsMap (expectedAux f) rest
                (if q.1 == a then (q.1, expectedAux f v tv) else q) =
              expAttrsMap (expectedAux f) ((a, v) :: rest) q
            rw [if_neg (by simp [hqa]),
              expAttrsMap_cons_ne (expectedAux f) a v rest q hqa]
        rw [hmap]

theorem copyDict_expected (rec : PyVal → PyVal → List String → CopyResult)
    (f : Nat) (path : List String) (m : String)
    (hrec : ∀ s' t' p', alignedB f s' t' = true → p'.length + f ≤ 11 →
      rec s' t' p' = (s', expectedAux f s' t', none))
    (hpath : path.length + 1 + f ≤ 11) :
    ∀ (se te : List (String × PyVal)),
      (se.map Prod.fst).Nodup →
      (te.map Prod.fst).Nodup →
      (∀ p ∈ se, ∃ tv, getAttr te p.1 = some tv ∧ alignedB f p.2 tv = true) →
      copyDict rec path m se te = (se, te.map (expDictMap (expectedAux f) se), none) := by
  intro se
  induction se with
  | nil =>
    intro te _ _ _
    rw [copyDict_nil]
    have : ∀ q ∈ te, expDictMap (expectedAux f) [] q = q := by
      intro q hq
      unfold expDictMap
      rfl
    rw [show te.map (expDictMap (expectedAux f) []) = te from by
      calc te.map _ = te.map id := List.map_congr_left this
        _ = te := List.map_id te]
  | cons p rest ih =>
    intro te hnds hndt hali
    obtain ⟨k, v⟩ := p
    obtain ⟨tv, hget, halikv⟩ := hali (k, v) (by simp)
    have hnds' : (rest.map Prod.fst).Nodup := (List.nodup_cons.mp (by simpa using hnds)).2
    have hnotk : k ∉ rest.map Prod.fst := (List.nodup_cons.mp (by simpa using hnds)).1
    have hreceq := hrec v tv (path ++ [k]) halikv (by simpa using hpath)
    have hrecerr : (rec v tv (path ++ [k])).2.2 = none := by rw [hreceq]
    have hrecsrc : (rec v tv (path ++ [k])).1 = v := by rw [hreceq]
    have hrectgt : (rec v tv (path ++ [k])).2.1 = expectedAux f v tv := by rw [hreceq]
    have hanyk := getAttr_some_any te k tv hget
    rw [copyDict_cons_ok rec path m k v rest te tv hget hrecerr, hrecsrc, hrectgt]
    have hndt1 : ((setAttr te k (expectedAux f v tv)).map Prod.fst).Nodup := by
      rw [setAttr_fst_of_any te k _ hanyk]
      exact hndt
    have hali1 : ∀ p ∈ rest, ∃ tv',
        getAttr (setAttr te k (expectedAux f v tv)) p.1 = some tv' ∧
          alignedB f p.2 tv' = true := by
      intro q hq
      obtain ⟨tv', hget', hali'⟩ := hali q (by simp [hq])
      have hne : q.1 ≠ k := by
        intro hh
        exact hnotk (hh ▸ List.mem_map_of_mem Prod.fst hq)
      exact ⟨tv', by rw [getAttr_setAttr_ne te k q.1 _ hne]; exact hget', hali'⟩
    rw [ih (setAttr te k (expectedAux f v tv)) hnds' hndt1 hali1]
    have hmap : (setAttr te k (expectedAux f v tv)).map (expDictMap (expectedAux f) rest) =
        te.map (expDictMap (expectedAux f) ((k, v) :: rest)) := by
      unfold setAttr
      rw [if_pos hanyk, List.map_map]
      refine List.map_congr_left (fun q hq => ?_)
      by_cases hqk : q.1 = k
      · have hq2 : q.2 = tv := by
          have := getAttr_mem_unique te hndt q hq
          rw [hqk, hget] at this
          exact (Option.some.injEq _ _ ▸ this).symm
        show expDictMap (expectedAux f) rest (if q.1 == k then (q.1, expectedAux f v tv) else q) =
          expDictMap (expectedAux f) ((k, v) :: rest) q
        rw [if_pos (by simp [hqk])]
        unfold expDictMap
        rw [hqk, getAttr_none_of_not_mem rest k hnotk, getAttr_cons_self, hq2]
      · show expDictMap (expectedAux f) rest (if q.1 == k then (q.1, expectedAux f v tv) else q) =
          expDictMap (expectedAux f) ((k, v) :: rest) q
        rw [if_neg (by simp [hqk]),
          expDictMap_cons_ne (expectedAux f) k v rest q hqk]
    rw [hmap]

theorem zipWith_getElem? {α β γ : Type} (g : α → β → γ) (xs : List α)
    (ys : List β) (i : Nat) (x : α) (y : β) (hx : xs[i]? = some x)
    (hy : ys[i]? = some y) : (List.zipWith g xs ys)[i]? = some (g x y) := by
  induction xs generalizing ys i with
  | nil => simp at hx
  | cons a xs ih =>
    cases ys with
    | nil => simp at hy
    | cons b ys =>
      cases i with
      | zero =>
        simp at hx hy
        simp [hx, hy]
      | succ j =>
        simp at hx hy
        simpa using ih ys j hx hy

theorem applyUpdates_getElem?_mem (ws : List (Nat × PyVal)) (t : List PyVal)
    (hnd : (ws.map Prod.fst).Nodup) (i : Nat) (v : PyVal)
    (hmem : (i, v) ∈ ws) (hlt : i < t.length) :
    (applyUpdates t ws)[i]? = some v := by
  induction ws generalizing t with
  | nil => simp at hmem
  | cons w rest ih =>
    rw [List.map_cons, List.nodup_cons] at hnd
    show (applyUpdates (t.set w.1 w.2) rest)[i]? = some v
    rcases List.mem_cons.mp hmem with heq | hmem'
    · have h1 : i = w.1 := by rw [← heq]
      have h2 : v = w.2 := by rw [← heq]
      rw [h1, h2]
      rw [applyUpdates_getElem?_not_mem rest (t.set w.1 w.2) w.1 hnd.1]
      exact List.getElem?_set_self (by rw [← h1]; exact hlt)
    · exact ih (t.set w.1 w.2) hnd.2 hmem' (by simpa using hlt)

theorem applyUpdates_eq_of_writes (ws : List (Nat × PyVal)) (t r : List PyVal)
    (hnd : (ws.map Prod.fst).Nodup)
    (hcov : List.Perm (ws.map Prod.fst) (List.range r.length))
    (hval : ∀ w ∈ ws, r[w.1]? = some w.2)
    (hlen : t.length = r.length) :
    applyUpdates t ws = r := by
  refine List.ext_getElem? (fun i => ?_)
  by_cases hi : i < r.length
  · have himem : i ∈ ws.map Prod.fst := hcov.mem_iff.mpr (List.mem_range.mpr hi)
    obtain ⟨w, hw, hwi⟩ := List.mem_map.mp himem
    rw [← hwi]
    rw [applyUpdates_getElem?_mem ws t hnd w.1 w.2 (by simpa using hw)
      (by rw [hlen, hwi]; exact hi)]
    exact (hval w hw).symm
  · have hno : i ∉ ws.map Prod.fst := fun hmem => hi (List.mem_range.mp (hcov.mem_iff.mp hmem))
    rw [applyUpdates_getElem?_not_mem ws t i hno]
    rw [List.getElem?_eq_none (by omega), List.getElem?_eq_none (by omega)]

theorem copyPairs_expected (rec : PyVal → PyVal → List String → CopyResult)
    (f : Nat) (path : List String)
    (hrec : ∀ s' t' p', alignedB f s' t' = true → p'.length + f ≤ 11 →
      rec s' t' p' = (s', expectedAux f s' t', none))
    (hpath : path.length + 1 + f ≤ 11) (k : Nat) (sp tp : List (PyVal × Nat))
    (h : List.Forall₂
      (fun p q : PyVal × Nat => alignedB f p.1 q.1 = true ∧ p.2 = q.2) sp tp) :
    copyPairs rec path k sp tp =
      (sp.map (fun p => (p.2, p.1)),
        (sp.zip tp).map (fun pq => (pq.2.2, expectedAux f pq.1.1 pq.2.1)),
        none) := by
  induction h generalizing k with
  | nil => rfl
  | @cons p q sp' tp' hpq hrest ih =>
    have hreceq := hrec p.1 q.1 (path ++ [toString k]) hpq.1 (by simpa using hpath)
    show copyPairs rec path k (p :: sp') (q :: tp') = _
    unfold copyPairs
    simp [hreceq, ih (k + 1), List.zip_cons_cons]

theorem copyColl_aligned (rec : PyVal → PyVal → List String → CopyResult)
    (f : Nat) (path : List String) (m : String) (xs ys : List PyVal)
    (hrec : ∀ s' t' p', alignedB f s' t' = true → p'.length + f ≤ 11 →
      rec s' t' p' = (s', expectedAux f s' t', none))
    (hpath : path.length + 1 + f ≤ 11)
    (hlen : xs.length = ys.length)
    (hhead : ∀ x0 rest, xs = x0 :: rest →
      isTypeObj x0 = false ∧ isUnsortableBase x0 = false)
    (hzip : List.Forall₂ (fun a b => alignedB f a b = true) xs ys) :
    copyColl rec path m xs ys = (xs, List.zipWith (expectedAux f) xs ys, none) := by
  cases xs with
  | nil =>
    have hys : ys = [] := by
      cases ys with
      | nil => rfl
      | cons _ _ => simp at hlen
    subst hys
    rw [copyColl_empty rec path m [] rfl]
    rfl
  | cons x0 rest =>
    obtain ⟨ht, hu⟩ := hhead x0 rest rfl
    rw [copyColl_sortable rec path m x0 rest ys hlen ht hu]
    have hsync := forall2_isort f _ _ (forall2_withIdx _ _ hzip 0)
    rw [copyPairs_expected rec f path hrec hpath 0 _ _ hsync]
    have hsrc : applyUpdates (x0 :: rest)
        ((isort pairLe (withIdx (x0 :: rest) 0)).map (fun p => (p.2, p.1))) =
        x0 :: rest := by
      refine applyUpdates_id _ _ (fun w hw => ?_)
      obtain ⟨p, hp, hpw⟩ := List.mem_map.mp hw
      have hmem := (mem_isort pairLe _ _).mp hp
      have hget := withIdx_mem (x0 :: rest) 0 p.1 p.2 (by simpa using hmem)
      rw [← hpw]
      simpa using hget.2
    have hws_fst : (((isort pairLe (withIdx (x0 :: rest) 0)).zip
        (isort pairLe (withIdx ys 0))).map
          (fun pq => (pq.2.2, expectedAux f pq.1.1 pq.2.1))).map Prod.fst =
        (isort pairLe (withIdx ys 0)).map Prod.snd := by
      rw [List.map_map]
      have hz : ((isort pairLe (withIdx (x0 :: rest) 0)).zip
          (isort pairLe (withIdx ys 0))).map Prod.snd = isort pairLe (withIdx ys 0) :=
        List.map_snd_zip _ _ (le_of_eq hsync.length_eq.symm)
      calc ((isort pairLe (withIdx (x0 :: rest) 0)).zip
            (isort pairLe (withIdx ys 0))).map
              (Prod.fst ∘ fun pq => (pq.2.2, expectedAux f pq.1.1 pq.2.1)) =
          (((isort pairLe (withIdx (x0 :: rest) 0)).zip
            (isort pairLe (withIdx ys 0))).map Prod.snd).map Prod.snd := by
            rw [List.map_map]
            exact List.map_congr_left (fun _ _ => rfl)
        _ = (isort pairLe (withIdx ys 0)).map Prod.snd := by rw [hz]
    have hAr : List.Perm ((isort pairLe (withIdx ys 0)).map Prod.snd)
        (List.range ys.length) := by
      have := (isort_perm pairLe (withIdx ys 0)).map Prod.snd
      rw [withIdx_map_snd, ← List.range_eq_range'] at this
      exact this
    have hrlen : (List.zipWith (expectedAux f) (x0 :: rest) ys).length = ys.length := by
      rw [List.length_zipWith]
      omega
    have htgt : applyUpdates ys
        (((isort pairLe (withIdx (x0 :: rest) 0)).zip (isort pairLe (withIdx ys 0))).map
          (fun pq => (pq.2.2, expectedAux f pq.1.1 pq.2.1))) =
        List.zipWith (expectedAux f) (x0 :: rest) ys := by
      refine applyUpdates_eq_of_writes _ _ _ ?_ ?_ ?_ ?_
      · rw [hws_fst]
        exact List.Perm.nodup hAr.symm (List.nodup_range _)
      · rw [hws_fst, hrlen]
        exact hAr
      · intro w hw
        obtain ⟨pq, hpq, hpqw⟩ := List.mem_map.mp hw
        obtain ⟨hal, hidx⟩ := forall2_zip_mem _ _ hsync pq hpq
        have hmem1 := (mem_isort pairLe _ _).mp (List.of_mem_zip hpq).1
        have hmem2 := (mem_isort pairLe _ _).mp (List.of_mem_zip hpq).2
        have hget1 := withIdx_mem (x0 :: rest) 0 pq.1.1 pq.1.2 (by simpa using hmem1)
        have hget2 := withIdx_mem ys 0 pq.2.1 pq.2.2 (by simpa using hmem2)
        rw [← hpqw]
        show (List.zipWith (expectedAux f) (x0 :: rest) ys)[pq.2.2]? =
          some (expectedAux f pq.1.1 pq.2.1)
        refine zipWith_getElem? (expectedAux f) _ _ pq.2.2 pq.1.1 pq.2.1 ?_ ?_
        · rw [← hidx]
          simpa using hget1.2
        · simpa using hget2.2
      · rw [hrlen]
    rw [hsrc, htgt]

/-- A clean copy: on an aligned pair whose structure fits within the
recursion guard, `copy_db_ids` succeeds and produces exactly the
expected result. -/
theorem copyAux_aligned (f : Nat) :
    ∀ (g : Nat) (s t : PyVal) (path : List String),
      f ≤ g → alignedB f s t = true → path.length + f ≤ 11 →
      copyAux g s t path = (s, expectedAux f s t, none) := by
  induction f with
  | zero =>
    intro g s t path _ hal _
    simp [alignedB] at hal
  | succ f ih =>
    intro g s t path hg hal hpath
    obtain ⟨g', rfl⟩ : ∃ g', g = g' + 1 := ⟨g - 1, by omega⟩
    have hg' : f ≤ g' := by omega
    have hrec : ∀ s' t' p', alignedB f s' t' = true → p'.length + f ≤ 11 →
        copyAux g' s' t' p' = (s', expectedAux f s' t', none) :=
      fun s' t' p' h1 h2 => ih g' s' t' p' hg' h1 h2
    rw [copyAux_succ]
    unfold copyOne
    rw [if_neg (by omega)]
    have hty := alignedB_sameType (f + 1) s t hal
    simp only [hty, Bool.not_true, Bool.false_eq_true, if_false]
    cases s <;> cases t <;> try (exfalso; revert hal; simp [alignedB]; done)
    all_goals try rfl
    case base.base =>
      rename_i c sb k sa c' sb' k' ta
      simp only [alignedB, Bool.and_eq_true, beq_iff_eq, decide_eq_true_eq] at hal
      obtain ⟨⟨⟨⟨⟨⟨h1, h2⟩, h3⟩, hnds⟩, hndt⟩, hsrcB⟩, htgtB⟩ := hal
      have hsrc : ∀ p ∈ sa,
          (isDbIdField p.1 = true → (getAttr ta p.1).isSome = true) ∧
          (isDbIdField p.1 = false → isSkippedAttr p.1 = false →
            ∃ tv, getAttr ta p.1 = some tv ∧ alignedB f p.2 tv = true) := by
        intro p hp
        have h := List.all_eq_true.mp hsrcB p hp
        constructor
        · intro hdb
          rw [if_pos hdb] at h
          exact h
        · intro hdb hsk
          rw [if_neg (by simp [hdb]), if_neg (by simp [hsk])] at h
          cases hget : getAttr ta p.1 with
          | none => rw [hget] at h; exact absurd h (by simp)
          | some tv =>
            rw [hget] at h
            exact ⟨tv, rfl, h⟩
      have htgt : ∀ q ∈ ta, isDbIdField q.1 = false → isSkippedAttr q.1 = true →
          idFreeB f q.2 = true := by
        intro q hq hdb hsk
        have h := (Bool.and_eq_true_iff.mp (List.all_eq_true.mp htgtB q hq)).2
        rw [if_neg (by simp [hdb]), if_pos hsk] at h
        exact h
      simp only [copyAttrs_expected (copyAux g') f path hrec (by omega) sa ta
        hnds hndt hsrc htgt]
      rfl
    case list.list =>
      rename_i xs ys
      simp only [alignedB, Bool.and_eq_true, beq_iff_eq] at hal
      obtain ⟨⟨hlen, hhead⟩, hall⟩ := hal
      have hzip := all_zip_forall2 _ xs ys hlen hall
      have hhead' : ∀ x0 rest, xs = x0 :: rest →
          isTypeObj x0 = false ∧ isUnsortableBase x0 = false := by
        intro x0 rest hxs
        subst hxs
        exact sortableElems_head x0 rest hhead
      simp only [copyColl_aligned (copyAux g') f path _ xs ys hrec (by omega) hlen hhead' hzip]
      show _ = (_, PyVal.list (List.zipWith (expectedAux f) xs ys ++ ys.drop xs.length), _)
      rw [List.drop_eq_nil_of_le (le_of_eq hlen.symm), List.append_nil]
    case set.set =>
      rename_i xs ys
      simp only [alignedB, Bool.and_eq_true, beq_iff_eq] at hal
      obtain ⟨⟨hlen, hhead⟩, hall⟩ := hal
      have hzip := all_zip_forall2 _ xs ys hlen hall
      have hhead' : ∀ x0 rest, xs = x0 :: rest →
          isTypeObj x0 = false ∧ isUnsortableBase x0 = false := by
        intro x0 rest hxs
        subst hxs
        exact sortableElems_head x0 rest hhead
      simp only [copyColl_aligned (copyAux g') f path _ xs ys hrec (by omega) hlen hhead' hzip]
      show _ = (_, PyVal.set (List.zipWith (expectedAux f) xs ys ++ ys.drop xs.length), _)
      rw [List.drop_eq_nil_of_le (le_of_eq hlen.symm), List.append_nil]
    case dict.dict =>
      rename_i se te
      simp only [alignedB, Bool.and_eq_true, decide_eq_true_eq] at hal
      obtain ⟨⟨⟨hnds, hndt⟩, hall⟩, _⟩ := hal
      have hali : ∀ p ∈ se, ∃ tv, getAttr te p.1 = some tv ∧ alignedB f p.2 tv = true := by
        intro p hp
        have := List.all_eq_true.mp hall p hp
        cases hget : getAttr te p.1 with
        | none => rw [hget] at this; simp at this
        | some tv =>
          rw [hget] at this
          exact ⟨tv, rfl, this⟩
      simp only [copyDict_expected (copyAux g') f path _ hrec (by omega) se te hnds hndt hali]
      rfl

/-- C1 counterexample input (sortability): a pair of singleton lists of
plain (non sortable) identifiable objects, structurally isomorphic and
differing only in the value of the identifier field `y_db_id`. -/
def c1xSrc : PyVal := .list [.base "GR" false 0 [("y_db_id", .int 1)]]

/-- The matching target with its identifier unset. -/
def c1xTgt : PyVal := .list [.base "GR" false 0 [("y_db_id", .pyNone)]]

/-- C1 counterexample input (skipped attribute): an object whose
`_experiment` attribute holds an object with an identifier field,
isomorphic to the matching target and differing only in that
identifier's value. -/
def c1xSrcSkip : PyVal :=
  .base "E" true 0 [("_experiment", .base "X" true 0 [("z_db_id", .int 5)])]

/-- The matching target with the nested identifier unset. -/
def c1xTgtSkip : PyVal :=
  .base "E" true 0 [("_experiment", .base "X" true 0 [("z_db_id", .pyNone)])]

/-- C1 counterexample input (tuple): a pair of tuples of identifiable
objects differing only in an identifier value. -/
def c1xSrcTup : PyVal := .tuple [.base "X" true 0 [("z_db_id", .int 7)]]

/-- The matching target with the nested identifier unset. -/
def c1xTgtTup : PyVal := .tuple [.base "X" true 0 [("z_db_id", .pyNone)]]

/-- C1 as stated fails on the code in three ways, each forcing one
restriction of the amendment.  (i) An isomorphic pair of singleton
lists of plain (unsortable) `Base` objects, differing only in an
identifier value and well within the depth guard, makes `copy_db_ids`
raise `SQADecodeError` with the target unchanged: collections must be
sortable.  (ii) An isomorphic pair differing only in an identifier
sitting inside the skipped `_experiment` attribute returns normally
with the target unchanged: the identifier is never copied.  (iii) An
isomorphic pair of tuples differing only in an identifier inside
returns normally with the target unchanged.  In each case the target's
identifier (`None`) differs from the source's after the call,
contradicting the claim at that input. -/
theorem c1_counterexample :
    (copy_db_ids c1xSrc c1xTgt [] =
      (c1xSrc, c1xTgt,
        some (.SQADecodeError
          ("Error encountered while traversing source [[...]] and target [[...]]: " ++
            "Cannot sort instances of GR; sorting is only defined on instances of SortableBase.")))
      ∧ PyVal.pyNone ≠ PyVal.int 1) ∧
    (copy_db_ids c1xSrcSkip c1xTgtSkip [] = (c1xSrcSkip, c1xTgtSkip, none)
      ∧ PyVal.pyNone ≠ PyVal.int 5) ∧
    (copy_db_ids c1xSrcTup c1xTgtTup [] = (c1xSrcTup, c1xTgtTup, none)
      ∧ PyVal.pyNone ≠ PyVal.int 7) :=
  ⟨⟨rfl, fun h => PyVal.noConfusion h⟩,
   ⟨rfl, fun h => PyVal.noConfusion h⟩,
   ⟨rfl, fun h => PyVal.noConfusion h⟩⟩

/-- C1 (amended): for every aligned pair — structurally isomorphic with
attributes matched by name, differing only in identifier values,
fitting in the depth guard, with every collection made of mutually
orderable elements and no identifier fields hidden in skipped
attributes or tuples — `copy_db_ids` returns normally, leaves the
source unchanged, and produces exactly the expected target: every
`_db_id` attribute copied from the source at its corresponding position
and nothing else changed. -/
theorem c1_ids_copied_amended (s t : PyVal) (h : alignedB 11 s t = true) :
    copy_db_ids s t [] = (s, expectedAux 11 s t, none) :=
  copyAux_aligned 11 12 s t [] (by omega) h (by simp)

/-- C1 witness input: an object with an identifier and a collection of
two sortable children, each with its own identifier, exercising the
attribute, collection-sort and nested-object paths. -/
def c1wSrc : PyVal :=
  .base "Obj" true 0
    [("x_db_id", .int 1),
     ("arms", .list [.base "Arm" true 1 [("y_db_id", .int 2)],
       .base "Arm" true 2 [("y_db_id", .int 3)]])]

/-- The matching target with identifiers unset. -/
def c1wTgt : PyVal :=
  .base "Obj" true 0
    [("x_db_id", .pyNone),
     ("arms", .list [.base "Arm" true 1 [("y_db_id", .pyNone)],
       .base "Arm" true 2 [("y_db_id", .pyNone)]])]

/-- Witness for the amended C1: the aligned pair above gets all three
identifiers copied and nothing else changed. -/
theorem c1_ids_copied_amended_witness :
    alignedB 11 c1wSrc c1wTgt = true ∧
      copy_db_ids c1wSrc c1wTgt [] =
        (c1wSrc,
          .base "Obj" true 0
            [("x_db_id", .int 1),
             ("arms", .list [.base "Arm" true 1 [("y_db_id", .int 2)],
               .base "Arm" true 2 [("y_db_id", .int 3)]])],
          none) :=
  ⟨rfl, (c1_ids_copied_amended c1wSrc c1wTgt rfl).trans rfl⟩
